import Mathlib

/-!
Shallow embedding of the µOS++ (CMSIS++) RTOS core: the `Thread` signal-flag
mailbox and lifecycle verbs, and the portable `Message_queue` implementation
(priority-ordered ring over parallel arrays with an intrusive free list).

Conventions of the embedding:
* machine integers (`sigset_t`, `mode_t`, sizes, priorities, indexes) are `Nat`;
* raw byte memory (the queue storage payload region and caller buffers) is a
  function `Nat → Nat` from byte offsets to byte values; `memcpy`/`memset`
  are explicit interval overwrites;
* a C++ pointer argument that may be `nullptr` is an `Option`;
* `mqueue::no_index` (the empty-ring sentinel stored in `head_`) is `none`;
* the free list, which the source threads through the first bytes of each
  free block as in-place pointers, is the list of block byte-offsets in chain
  order (`first_free_ == nullptr` corresponds to `[]`);
* the two waiting-thread lists are lists of opaque thread ids; `wakeup_one`
  detaches the head, `wakeup_all`/`clear` empties the list (the effect on the
  woken threads' scheduler state is outside the queue object);
* `scheduler::in_handler_mode ()` is an explicit `handlerMode : Bool`
  argument to every entry that tests it;
* `os_assert_err (cond, err)` is an early `if ¬ cond then return err`.
-/

namespace CmsisPlus

/-- `result_t` values surfaced by the kernel (`result::ok` and POSIX errno
codes), as an enumeration. -/
inductive Result where
  | ok
  | eperm
  | einval
  | emsgsize
  | eagain
  | eintr
  | etimedout
  | edeadlk
  | enotrecoverable
  deriving DecidableEq, Repr

/-- `thread::state` lifecycle values. -/
inductive ThreadState where
  | inactive
  | ready
  | running
  | suspended
  | terminated
  | destroyed
  deriving DecidableEq, Repr

namespace flags

/-- Modelled from the spec: `flags::mode::all` — the header defining the
`flags::mode` bit constants is not part of the sources; the spec only
requires three distinct condition bits. -/
def mode.all : Nat := 1

/-- Modelled from the spec: `flags::mode::any` bit. -/
def mode.any : Nat := 2

/-- Modelled from the spec: `flags::mode::clear` bit. -/
def mode.clear : Nat := 4

end flags

/-- Modelled from the spec: the `sig::error` sentinel returned by signal
getters that fail (header value not in the sources; all-ones sentinel). -/
def sig.error : Nat := 0xffffffff

/-- The `Thread` fields observable through the embedded operations:
scheduling priority `prio_`, the signal-flag mailbox `sig_mask_`, the
lifecycle state `sched_state_`, the last wakeup reason `wakeup_reason_`
and the exit value `func_result_`. -/
structure Thread where
  prio : Nat
  sigMask : Nat
  schedState : ThreadState
  wakeupReason : Result
  funcResult : Option Nat
  deriving DecidableEq, Repr

namespace Thread

/-- `Thread::kill`: the portable branch sets `res = result::ok`, then
unconditionally `sched_state_ = thread::state::inactive` and returns `res`. -/
def kill (t : Thread) : Result × Thread :=
  let res := Result.ok
  (res, { t with schedState := ThreadState.inactive })

/-- `Thread::interrupted`: the source body is literally `return false`. -/
def interrupted (_t : Thread) : Bool :=
  false

/-- `Thread::sig_raise (mask, oflags)`: `EINVAL` on zero mask, else under a
critical section optionally snapshot the old mask, OR the bits in and wake
the thread.  Returns (result, snapshot written through `oflags`, thread). -/
def sig_raise (t : Thread) (mask : Nat) (oflagsPtr : Bool) :
    Result × Option Nat × Thread :=
  if mask = 0 then (Result.einval, none, t)
  else
    let written := if oflagsPtr then some t.sigMask else none
    let t := { t with sigMask := t.sigMask ||| mask }
    let t := { t with wakeupReason := Result.ok }   -- wakeup ()
    (Result.ok, written, t)

/-- `Thread::sig_get (mask, mode)`: `sig::error` in handler mode; when
`mask == 0` return the entire signal mask (no clearing); otherwise return
`sig_mask_ & mask` and, if `mode` has the clear bit, clear the selected
bits.  Returns (returned value, thread). -/
def sig_get (handlerMode : Bool) (t : Thread) (mask : Nat) (mode : Nat) :
    Nat × Thread :=
  if handlerMode then (sig.error, t)
  else if mask = 0 then (t.sigMask, t)
  else
    let ret := t.sigMask &&& mask
    let t :=
      if mode &&& flags.mode.clear ≠ 0 then
        { t with sigMask := Nat.ldiff t.sigMask mask }
      else t
    (ret, t)

/-- `Thread::sig_clear (mask, oflags)`: `EPERM` in handler mode, `EINVAL`
on zero mask, else snapshot and `sig_mask_ &= ~mask`. -/
def sig_clear (handlerMode : Bool) (t : Thread) (mask : Nat)
    (oflagsPtr : Bool) : Result × Option Nat × Thread :=
  if handlerMode then (Result.eperm, none, t)
  else if mask = 0 then (Result.einval, none, t)
  else
    let written := if oflagsPtr then some t.sigMask else none
    (Result.ok, written, { t with sigMask := Nat.ldiff t.sigMask mask })

/-- `Thread::_try_wait (mask, oflags, mode)`: the all-mode branch requires
`(sig_mask_ & mask) == mask` and clears exactly `mask`; the any-mode branch
(also taken when `mask == 0`) requires `sig_mask_ != 0` and clears the
whole mask; otherwise `EAGAIN`.  Returns (result, snapshot written through
`oflags`, thread). -/
def _try_wait (t : Thread) (mask : Nat) (oflagsPtr : Bool) (mode : Nat) :
    Result × Option Nat × Thread :=
  if mask ≠ 0 ∧ mode &&& flags.mode.all ≠ 0 then
    if t.sigMask &&& mask = mask then
      let written := if oflagsPtr then some t.sigMask else none
      (Result.ok, written, { t with sigMask := Nat.ldiff t.sigMask mask })
    else (Result.eagain, none, t)
  else if mask = 0 ∨ mode &&& flags.mode.any ≠ 0 then
    if t.sigMask ≠ 0 then
      let written := if oflagsPtr then some t.sigMask else none
      (Result.ok, written, { t with sigMask := 0 })
    else (Result.eagain, none, t)
  else (Result.eagain, none, t)

/-- `Thread::try_sig_wait (mask, oflags, mode)`: `EPERM` in handler mode,
then a single `_try_wait` under a critical section. -/
def try_sig_wait (handlerMode : Bool) (t : Thread) (mask : Nat)
    (oflagsPtr : Bool) (mode : Nat) : Result × Option Nat × Thread :=
  if handlerMode then (Result.eperm, none, t)
  else _try_wait t mask oflagsPtr mode

end Thread

/-- `std::memcpy (dst + doff, src + soff, n)` on byte memories. -/
def memcpy (dst : Nat → Nat) (doff : Nat) (src : Nat → Nat) (soff n : Nat) :
    Nat → Nat :=
  fun a => if doff ≤ a ∧ a < doff + n then src (soff + (a - doff)) else dst a

/-- `std::memset (dst + doff, v, n)` on byte memories. -/
def memset (dst : Nat → Nat) (doff v n : Nat) : Nat → Nat :=
  fun a => if doff ≤ a ∧ a < doff + n then v else dst a

namespace mqueue

/-- Modelled from the spec: `mqueue::max_size`, the upper bound checked on
the receive-side `nbytes` (header value not in the sources). -/
def max_size : Nat := 0xffffffff

/-- `flags_allocated`: the ownership bit set in `flags_` when the queue
allocated its own storage.  Modelled from the spec: the numeric value of the
bit comes from the header, which is not in the sources; any nonzero bit. -/
def flags_allocated : Nat := 1

end mqueue

/-- The state of a portable `Message_queue`: capacity `msgs_` (N),
per-message size `msg_size_bytes_` (M), the payload region (`queue_addr_`,
N·M bytes, addressed by offset), the three parallel arrays
`prev_array_`/`next_array_`/`prio_array_` (addressed by slot index), the
ring head (`mqueue::no_index` = `none`), the intrusive LIFO free list as
block byte-offsets in chain order, the message count, the ownership flags
and the two waiting-thread lists. -/
structure MsgQueue where
  msgs : Nat
  msgSizeBytes : Nat
  payload : Nat → Nat
  prevA : Nat → Nat
  nextA : Nat → Nat
  prioA : Nat → Nat
  head : Option Nat
  firstFree : List Nat
  count : Nat
  flags : Nat
  sendList : List Nat
  receiveList : List Nat

namespace MsgQueue

/-- `Message_queue::_init`: zero the count, rebuild the free chain through
the blocks in slot order (block `i` at offset `i·M`, each linking to the
next, the last to null), empty the ring and wake-up-all + clear both
waiting lists. -/
def _init (q : MsgQueue) : MsgQueue :=
  { q with
    count := 0
    firstFree := (List.range q.msgs).map (fun i => i * q.msgSizeBytes)
    head := none
    sendList := []
    receiveList := [] }

/-- Construct a `Message_queue` over `msgs` messages of `msgSizeBytes`
bytes each.  `userStorage` tells whether the attributes carried a user
storage area; otherwise the storage is allocated and `flags_` receives
`flags_allocated`.  The payload region starts as the given byte memory and
the object is then `_init`ed. -/
def mkQueue (msgs msgSizeBytes : Nat) (userStorage : Bool)
    (mem : Nat → Nat) : MsgQueue :=
  _init
    { msgs := msgs
      msgSizeBytes := msgSizeBytes
      payload := mem
      prevA := fun _ => 0
      nextA := fun _ => 0
      prioA := fun _ => 0
      head := none
      firstFree := []
      count := 0
      flags := if userStorage then 0 else mqueue.flags_allocated
      sendList := []
      receiveList := [] }

/-- The `while ((mprio > prio_array_[ix])) ix = prev_array_[ix];` walk of
`_try_send`, with explicit fuel (the source loop terminates because the
ring is priority-sorted; every use passes fuel ≥ ring length). -/
def walkBack (prioA prevA : Nat → Nat) (mprio : Nat) :
    Nat → Nat → Nat
  | 0, ix => ix
  | fuel + 1, ix =>
      if mprio > prioA ix then walkBack prioA prevA mprio fuel (prevA ix)
      else ix

/-- `Message_queue::_try_send (msg, nbytes, mprio)`: fail on an empty free
list; else pop the first free block as `dest`, compute its slot index,
record the priority, splice the slot into the priority ring (new head when
strictly above the head priority, otherwise after the last slot of equal
or higher priority, found by walking back from the tail), bump the count,
copy `nbytes` from the caller buffer and zero-fill up to the message size,
and wake one receiver. -/
def _try_send (q : MsgQueue) (msg : Nat → Nat) (nbytes mprio : Nat) :
    Bool × MsgQueue :=
  match q.firstFree with
  | [] => (false, q)
  | dest :: restFree =>
    let msgIx := dest / q.msgSizeBytes
    let prioA := Function.update q.prioA msgIx mprio
    let hpn : Option Nat × (Nat → Nat) × (Nat → Nat) :=
      match q.head with
      | none =>
          (some msgIx,
           Function.update q.prevA msgIx msgIx,
           Function.update q.nextA msgIx msgIx)
      | some h =>
          let ix0 := q.prevA h
          let newHead := mprio > prioA h
          let ix := if newHead then ix0
                    else walkBack prioA q.prevA mprio q.msgs ix0
          let prevA1 := Function.update q.prevA msgIx ix
          let nextA1 := Function.update q.nextA msgIx (q.nextA ix)
          let tmpIx := nextA1 ix
          let nextA2 := Function.update nextA1 ix msgIx
          let prevA2 := Function.update prevA1 tmpIx msgIx
          (some (if newHead then msgIx else h), prevA2, nextA2)
    let payload := memcpy q.payload dest msg 0 nbytes
    let payload :=
      if nbytes < q.msgSizeBytes then
        memset payload (dest + nbytes) 0 (q.msgSizeBytes - nbytes)
      else payload
    (true,
      { q with
        prioA := prioA
        head := hpn.1
        prevA := hpn.2.1
        nextA := hpn.2.2
        firstFree := restFree
        count := q.count + 1
        payload := payload
        receiveList := q.receiveList.drop 1 })

/-- `Message_queue::_try_receive (msg, nbytes, mprio)`: fail on an empty
ring; else copy `nbytes` bytes from the head slot's storage into the caller
buffer, read the head priority, unsplice the head (or mark the ring empty
when it held a single message), push the freed block on the free list,
decrement the count and wake one sender.  Returns the updated caller
buffer, the priority that would be written through `mprio` and the new
queue. -/
def _try_receive (q : MsgQueue) (buf : Nat → Nat) (nbytes : Nat) :
    Option ((Nat → Nat) × Nat × MsgQueue) :=
  match q.head with
  | none => none
  | some h =>
    let src := h * q.msgSizeBytes
    let buf' := memcpy buf 0 q.payload src nbytes
    let mprio := q.prioA h
    let hpn : Option Nat × (Nat → Nat) × (Nat → Nat) :=
      if q.count > 1 then
        let prevA1 := Function.update q.prevA (q.nextA h) (q.prevA h)
        let nextA1 := Function.update q.nextA (prevA1 h) (q.nextA h)
        (some (nextA1 h), prevA1, nextA1)
      else (none, q.prevA, q.nextA)
    some (buf', mprio,
      { q with
        head := hpn.1
        prevA := hpn.2.1
        nextA := hpn.2.2
        firstFree := src :: q.firstFree
        count := q.count - 1
        sendList := q.sendList.drop 1 })

/-- `Message_queue::try_send`: the `os_assert_err` gates (`EINVAL` on a
null buffer, `EMSGSIZE` unless `nbytes >= msg_size_bytes_` — note the
direction) followed by a single `_try_send`; `EAGAIN` when full.  No
handler-mode gate (ISR-safe). -/
def try_send (q : MsgQueue) (msg : Option (Nat → Nat))
    (nbytes mprio : Nat) : Result × MsgQueue :=
  match msg with
  | none => (Result.einval, q)
  | some msg =>
    if ¬ nbytes ≥ q.msgSizeBytes then (Result.emsgsize, q)
    else
      match _try_send q msg nbytes mprio with
      | (true, q') => (Result.ok, q')
      | (false, q') => (Result.eagain, q')

/-- The precondition gates of the blocking `Message_queue::send`: `EPERM`
in handler mode, `EINVAL` on a null buffer, `EMSGSIZE` unless
`nbytes >= msg_size_bytes_`; `none` when all gates pass and the
send loop is entered. -/
def send_gates (handlerMode : Bool) (q : MsgQueue)
    (msg : Option (Nat → Nat)) (nbytes : Nat) : Option Result :=
  if handlerMode then some Result.eperm
  else match msg with
  | none => some Result.einval
  | some _ =>
    if ¬ nbytes ≥ q.msgSizeBytes then some Result.emsgsize
    else none

/-- `Message_queue::try_receive`: gates (`EINVAL` null buffer, `EMSGSIZE`
unless `msg_size_bytes_ <= nbytes <= mqueue::max_size`) then one
`_try_receive`; `EAGAIN` when empty. -/
def try_receive (q : MsgQueue) (buf : Option (Nat → Nat)) (nbytes : Nat) :
    Result × Option ((Nat → Nat) × Nat) × MsgQueue :=
  match buf with
  | none => (Result.einval, none, q)
  | some buf =>
    if ¬ nbytes ≥ q.msgSizeBytes then (Result.emsgsize, none, q)
    else if ¬ nbytes ≤ mqueue.max_size then (Result.emsgsize, none, q)
    else
      match _try_receive q buf nbytes with
      | some (buf', mprio, q') => (Result.ok, some (buf', mprio), q')
      | none => (Result.eagain, none, q)

/-- One iteration of the blocking `Message_queue::receive` loop body (after
the gates): a successful `_try_receive` returns `result::ok`; otherwise the
thread suspends on the receive list and, once resumed, returns `EINTR`
exactly when `interrupted ()` reports true — `none` means the loop simply
retries. -/
def receive_body (q : MsgQueue) (crt : Thread) (buf : Nat → Nat)
    (nbytes : Nat) : Option (Result × (Nat → Nat) × Nat × MsgQueue) :=
  match _try_receive q buf nbytes with
  | some (buf', mprio, q') => some (Result.ok, buf', mprio, q')
  | none =>
      if Thread.interrupted crt then some (Result.eintr, buf, 0, q)
      else none

/-- The result component of one blocking-receive loop iteration. -/
def receive_body_result (q : MsgQueue) (crt : Thread) (buf : Nat → Nat)
    (nbytes : Nat) : Option Result :=
  (receive_body q crt buf nbytes).map (fun r => r.1)

/-- `Message_queue::reset`: `EPERM` in handler mode, else `_init` under a
critical section and `result::ok`. -/
def reset (handlerMode : Bool) (q : MsgQueue) : Result × MsgQueue :=
  if handlerMode then (Result.eperm, q)
  else (Result.ok, _init q)

/-- The deallocation condition of `Message_queue::~Message_queue` in the
portable branch: the source tests `if (flags_ | flags_allocated)` —
a bitwise OR used as a truth value. -/
def destructor_frees (q : MsgQueue) : Bool :=
  (q.flags ||| mqueue.flags_allocated) ≠ 0

end MsgQueue

/-! ### Scenario and abstraction definitions -/

/-- The all-zero byte memory, used as the initial payload / caller buffer
of the concrete fixtures. -/
def zeroMem : Nat → Nat := fun _ => 0

/-- A byte buffer holding the bytes of `bs` (and `0` past its end). -/
def bufOfList (bs : List Nat) : Nat → Nat := fun i => bs.getD i 0

/-- An abstract message: payload bytes and priority. -/
abbrev Msg := List Nat × Nat

/-- An abstract queue slot binding: occupied slot index together with the
message stored in it. -/
abbrev QEntry := Nat × Msg

/-- The priority of an abstract slot binding. -/
def entryPrio (e : QEntry) : Nat := e.2.2

/-- Stable priority insertion: the new element goes before the first
element of strictly lower priority, hence after every element of equal or
higher priority — the abstract counterpart of the `_try_send` ring
insertion. -/
def insertByPrio {α : Type} (pr : α → Nat) (m : α) : List α → List α
  | [] => [m]
  | x :: xs =>
      if pr x < pr m then m :: x :: xs else x :: insertByPrio pr m xs

/-- Send every message of `S`, in order, through `_try_send` with
full-size payloads (`nbytes = msg_size_bytes_`); `none` as soon as one
send fails. -/
def sendAll (q : MsgQueue) : List Msg → Option MsgQueue
  | [] => some q
  | m :: S =>
    match MsgQueue._try_send q (bufOfList m.1) q.msgSizeBytes m.2 with
    | (true, q') => sendAll q' S
    | (false, _) => none

/-- Drain `k` messages through `_try_receive` (full-size reads into a
zero buffer), collecting the returned payload bytes and priorities. -/
def drainAll : Nat → MsgQueue → List Msg
  | 0, _ => []
  | k + 1, q =>
    match MsgQueue._try_receive q zeroMem q.msgSizeBytes with
    | some (buf', mprio, q') =>
        ((List.range q.msgSizeBytes).map buf', mprio) :: drainAll k q'
    | none => []

/-- The stable descending-priority sort of a send sequence, by repeated
stable insertion. -/
def sortSends (S : List Msg) : List Msg :=
  S.foldl (fun acc m => insertByPrio Prod.snd m acc) []

/-- `l` lists a ring encoded by the successor array `next`: consecutive
elements are linked and the last links back to the first. -/
def IsRing (next : Nat → Nat) (l : List Nat) : Prop :=
  List.Chain' (fun x y => next x = y) l ∧
  ∀ a ∈ l.getLast?, ∀ b ∈ l.head?, next a = b

/-- Refinement invariant tying a queue state to its abstract content list
`l` (occupied slot, payload bytes, priority — head first): the head, the
count, both link arrays, the priority array, the payload region and the
free list all represent `l`, the ring is weakly sorted by descending
priority, and ring and free list partition the `msgs_` slots. -/
structure QInv (q : MsgQueue) (l : List QEntry) : Prop where
  msgSizePos : 0 < q.msgSizeBytes
  headEq : q.head = (l.map Prod.fst).head?
  countEq : q.count = l.length
  nodup : (l.map Prod.fst).Nodup
  memLt : ∀ e ∈ l, e.1 < q.msgs
  ringN : IsRing q.nextA (l.map Prod.fst)
  ringP : IsRing q.prevA (l.map Prod.fst).reverse
  sorted : List.Pairwise (fun a b => entryPrio b ≤ entryPrio a) l
  prioEq : ∀ e ∈ l, q.prioA e.1 = entryPrio e
  bytesLen : ∀ e ∈ l, e.2.1.length = q.msgSizeBytes
  payloadEq : ∀ e ∈ l, ∀ i < q.msgSizeBytes,
      q.payload (e.1 * q.msgSizeBytes + i) = e.2.1.getD i 0
  freeOff : ∀ d ∈ q.firstFree,
      d % q.msgSizeBytes = 0 ∧ d / q.msgSizeBytes < q.msgs
  freeDisj : ∀ d ∈ q.firstFree, d / q.msgSizeBytes ∉ l.map Prod.fst
  freeNodup : (q.firstFree.map (· / q.msgSizeBytes)).Nodup
  totalEq : l.length + q.firstFree.length = q.msgs

/-- A user-level queue operation, for the conservation claim: a
(non-blocking) send or receive attempt, or a reset, each with arbitrary
arguments.  The blocking variants reach the queue state through exactly
the same `_try_send`/`_try_receive`/gate combinations. -/
inductive QOp where
  | send (msg : Option (Nat → Nat)) (nbytes mprio : Nat)
  | recv (buf : Option (Nat → Nat)) (nbytes : Nat)
  | reset

/-- Apply one user-level operation (outside handler mode) and keep the
resulting queue state. -/
def applyOp (q : MsgQueue) : QOp → MsgQueue
  | QOp.send msg nbytes mprio => (MsgQueue.try_send q msg nbytes mprio).2
  | QOp.recv buf nbytes => (MsgQueue.try_receive q buf nbytes).2.2
  | QOp.reset => (MsgQueue.reset false q).2

/-- Run a sequence of user-level operations. -/
def runOps (q : MsgQueue) (ops : List QOp) : MsgQueue :=
  ops.foldl applyOp q

/-! ### Concrete fixtures -/

/-- A concrete 3-message, 4-bytes-per-message queue with allocated
storage. -/
def q34 : MsgQueue := MsgQueue.mkQueue 3 4 false zeroMem

/-- A concrete operation sequence: two sends, a receive, a failing
null-buffer receive, a reset. -/
def opsC3 : List QOp :=
  [QOp.send (some zeroMem) 1 5, QOp.send (some zeroMem) 1 9,
   QOp.recv (some zeroMem) 1, QOp.recv none 3, QOp.reset]

/-- A concrete 2-message, 4-bytes-per-message queue holding the messages
`[1,2,3,4]` (head slot) and `[9,9,9,9]`, both at priority 5. -/
def qTwoMsgs : MsgQueue :=
  (MsgQueue._try_send
    (MsgQueue._try_send (MsgQueue.mkQueue 2 4 false zeroMem)
        (bufOfList [1, 2, 3, 4]) 4 5).2
    (bufOfList [9, 9, 9, 9]) 4 5).2

/-! ### Helper lemmas -/

/-- Clearing the bits of `y` out of `x` leaves nothing of `y`. -/
theorem ldiff_land (x y : Nat) : Nat.ldiff x y &&& y = 0 := by
  apply Nat.eq_of_testBit_eq
  intro i
  simp [Nat.testBit_land, Nat.testBit_ldiff]

/-- The conservation predicate of the queue: occupied plus free blocks
account for all `msgs_` slots, and the empty-ring sentinel agrees with the
count. -/
def Conserved (q : MsgQueue) : Prop :=
  q.count + q.firstFree.length = q.msgs ∧ (q.head = none ↔ q.count = 0)

theorem conserved_init (q : MsgQueue) : Conserved (MsgQueue._init q) := by
  constructor
  · simp [MsgQueue._init]
  · simp [MsgQueue._init]

theorem conserved_try_send (q : MsgQueue) (msg : Nat → Nat)
    (nbytes mprio : Nat) (h : Conserved q) :
    Conserved (MsgQueue._try_send q msg nbytes mprio).2 := by
  obtain ⟨h1, h2⟩ := h
  unfold MsgQueue._try_send
  rcases hf : q.firstFree with _ | ⟨dest, rest⟩
  · exact ⟨h1, h2⟩
  · rcases hh : q.head with _ | h0 <;>
      · refine ⟨?_, ?_⟩
        · simp only []
          rw [hf] at h1
          simp at h1 ⊢
          omega
        · simp [hh]

theorem conserved_try_receive (q : MsgQueue) (buf : Nat → Nat)
    (nbytes : Nat) (h : Conserved q) (r : (Nat → Nat) × Nat × MsgQueue)
    (hr : MsgQueue._try_receive q buf nbytes = some r) :
    Conserved r.2.2 := by
  obtain ⟨h1, h2⟩ := h
  unfold MsgQueue._try_receive at hr
  rcases hh : q.head with _ | h0
  · rw [hh] at hr
    exact absurd hr (by simp)
  · rw [hh] at hr
    have hc : q.count ≠ 0 := by
      intro hc0
      exact absurd (h2.mpr hc0) (by simp [hh])
    simp only [Option.some_inj] at hr
    subst hr
    by_cases hgt : q.count > 1
    · refine ⟨?_, ?_⟩
      · simp [if_pos hgt]
        omega
      · simp [if_pos hgt]
        omega
    · refine ⟨?_, ?_⟩
      · simp [if_neg hgt]
        omega
      · simp [if_neg hgt]
        omega

theorem conserved_applyOp (q : MsgQueue) (op : QOp) (h : Conserved q) :
    Conserved (applyOp q op) := by
  rcases op with ⟨msg, nbytes, mprio⟩ | ⟨buf, nbytes⟩ | _
  · rcases msg with _ | msg
    · exact h
    · unfold applyOp MsgQueue.try_send
      by_cases hsz : ¬ nbytes ≥ q.msgSizeBytes
      · simpa [hsz] using h
      · have hsend := conserved_try_send q msg nbytes mprio h
        simp only [hsz, if_false]
        rcases hts : MsgQueue._try_send q msg nbytes mprio with ⟨b, q'⟩
        rw [hts] at hsend
        cases b <;> simpa using hsend
  · rcases buf with _ | buf
    · exact h
    · unfold applyOp MsgQueue.try_receive
      by_cases hsz : ¬ nbytes ≥ q.msgSizeBytes
      · simpa [hsz] using h
      · by_cases hsz2 : ¬ nbytes ≤ mqueue.max_size
        · simpa [hsz, hsz2] using h
        · simp only [hsz, hsz2, if_false]
          rcases htr : MsgQueue._try_receive q buf nbytes with _ | r
          · simpa using h
          · simpa using conserved_try_receive q buf nbytes h r htr
  · exact conserved_init q

theorem applyOp_msgs (q : MsgQueue) (op : QOp) :
    (applyOp q op).msgs = q.msgs := by
  rcases op with ⟨msg, nbytes, mprio⟩ | ⟨buf, nbytes⟩ | _
  · rcases msg with _ | msg
    · rfl
    · unfold applyOp MsgQueue.try_send
      by_cases hsz : ¬ nbytes ≥ q.msgSizeBytes
      · simp [hsz]
      · simp only [hsz, if_false]
        rcases hts : MsgQueue._try_send q msg nbytes mprio with ⟨b, q'⟩
        have : q'.msgs = q.msgs := by
          unfold MsgQueue._try_send at hts
          rcases hf : q.firstFree with _ | ⟨dest, rest⟩ <;> rw [hf] at hts <;>
            simp at hts
          · rw [← hts.2]
          · rw [← hts.2]
        cases b <;> simpa using this
  · rcases buf with _ | buf
    · rfl
    · unfold applyOp MsgQueue.try_receive
      by_cases hsz : ¬ nbytes ≥ q.msgSizeBytes
      · simp [hsz]
      · by_cases hsz2 : ¬ nbytes ≤ mqueue.max_size
        · simp [hsz, hsz2]
        · simp only [hsz, hsz2, if_false]
          rcases htr : MsgQueue._try_receive q buf nbytes with _ | r
          · simp
          · have : r.2.2.msgs = q.msgs := by
              unfold MsgQueue._try_receive at htr
              rcases hh : q.head with _ | h0 <;> rw [hh] at htr <;>
                simp at htr
              rw [← htr]
            simpa using this
  · rfl

theorem runOps_conserved (ops : List QOp) :
    ∀ q : MsgQueue, Conserved q →
      Conserved (runOps q ops) ∧ (runOps q ops).msgs = q.msgs := by
  induction ops with
  | nil => exact fun q h => ⟨h, rfl⟩
  | cons op ops ih =>
      intro q h
      have step := ih (applyOp q op) (conserved_applyOp q op h)
      exact ⟨step.1, step.2.trans (applyOp_msgs q op)⟩

/-- A concrete thread whose signal mask is `0b10`. -/
def thr2 : Thread :=
  { prio := 10, sigMask := 2, schedState := ThreadState.running
    wakeupReason := Result.ok, funcResult := none }

/-- A concrete thread whose signal mask is `0b101`. -/
def thr5 : Thread :=
  { prio := 10, sigMask := 5, schedState := ThreadState.running
    wakeupReason := Result.ok, funcResult := none }

/-- A concrete thread whose signal mask is `0b110`. -/
def thr6 : Thread :=
  { prio := 10, sigMask := 6, schedState := ThreadState.running
    wakeupReason := Result.ok, funcResult := none }

/-! ### Properties of stable priority insertion -/

theorem insertByPrio_eq {α : Type} (pr : α → Nat) (m : α) :
    ∀ l : List α,
      insertByPrio pr m l
        = l.takeWhile (fun x => ! decide (pr x < pr m))
          ++ m :: l.dropWhile (fun x => ! decide (pr x < pr m)) := by
  intro l
  induction l with
  | nil => rfl
  | cons x xs ih =>
      by_cases hx : pr x < pr m
      · simp [insertByPrio, hx, List.takeWhile_cons, List.dropWhile_cons]
      · simp [insertByPrio, hx, List.takeWhile_cons, List.dropWhile_cons, ih]

theorem insertByPrio_perm {α : Type} (pr : α → Nat) (m : α) :
    ∀ l : List α, (insertByPrio pr m l).Perm (m :: l) := by
  intro l
  induction l with
  | nil => exact List.Perm.refl _
  | cons x xs ih =>
      by_cases hx : pr x < pr m
      · simp [insertByPrio, hx]
      · simp only [insertByPrio, hx, if_false]
        exact (ih.cons x).trans (List.Perm.swap m x xs)

theorem insertByPrio_mem {α : Type} (pr : α → Nat) (m y : α) (l : List α) :
    y ∈ insertByPrio pr m l ↔ y = m ∨ y ∈ l := by
  rw [(insertByPrio_perm pr m l).mem_iff]
  simp

theorem insertByPrio_pairwise {α : Type} (pr : α → Nat) (m : α)
    (l : List α) (hl : List.Pairwise (fun a b => pr b ≤ pr a) l) :
    List.Pairwise (fun a b => pr b ≤ pr a) (insertByPrio pr m l) := by
  induction l with
  | nil => simp [insertByPrio]
  | cons x xs ih =>
      rw [List.pairwise_cons] at hl
      by_cases hx : pr x < pr m
      · simp only [insertByPrio, hx, if_true]
        rw [List.pairwise_cons]
        refine ⟨?_, List.pairwise_cons.mpr hl⟩
        intro b hb
        rcases List.mem_cons.mp hb with hb | hb
        · exact hb ▸ le_of_lt hx
        · exact le_trans (hl.1 b hb) (le_of_lt hx)
      · simp only [insertByPrio, hx, if_false]
        rw [List.pairwise_cons]
        refine ⟨?_, ih hl.2⟩
        intro b hb
        rcases (insertByPrio_mem pr m b xs).mp hb with hb | hb
        · exact hb ▸ le_of_not_lt hx
        · exact hl.1 b hb

theorem dropWhile_prio_lt {α : Type} (pr : α → Nat) (m : α) :
    ∀ l : List α, List.Pairwise (fun a b => pr b ≤ pr a) l →
      ∀ x ∈ l.dropWhile (fun x => ! decide (pr x < pr m)), pr x < pr m := by
  intro l
  induction l with
  | nil => simp
  | cons a t ih =>
      intro hl x hx
      rw [List.pairwise_cons] at hl
      by_cases ha : pr a < pr m
      · rw [List.dropWhile_cons_of_neg (by simp [ha])] at hx
        rcases List.mem_cons.mp hx with hx | hx
        · exact hx ▸ ha
        · exact lt_of_le_of_lt (hl.1 x hx) ha
      · rw [List.dropWhile_cons_of_pos (by simp [ha])] at hx
        exact ih hl.2 x hx

theorem insertByPrio_filter {α : Type} (pr : α → Nat) (m : α) (p : Nat)
    (l : List α) (hl : List.Pairwise (fun a b => pr b ≤ pr a) l) :
    (insertByPrio pr m l).filter (fun x => decide (pr x = p))
      = if pr m = p then
          l.filter (fun x => decide (pr x = p)) ++ [m]
        else l.filter (fun x => decide (pr x = p)) := by
  rw [insertByPrio_eq]
  conv_rhs => rw [← List.takeWhile_append_dropWhile
    (fun x => ! decide (pr x < pr m)) l]
  rw [List.filter_append, List.filter_append, List.filter_cons]
  by_cases hm : pr m = p
  · have hdrop : (l.dropWhile (fun x => ! decide (pr x < pr m))).filter
        (fun x => decide (pr x = p)) = [] := by
      rw [List.filter_eq_nil_iff]
      intro x hx
      have := dropWhile_prio_lt pr m l hl x hx
      simp only [decide_eq_true_eq]
      omega
    rw [hm] at hdrop
    simp [hm, hdrop]
  · simp [hm]

theorem foldl_insertByPrio_pairwise {α : Type} (pr : α → Nat) :
    ∀ (S acc : List α), List.Pairwise (fun a b => pr b ≤ pr a) acc →
      List.Pairwise (fun a b => pr b ≤ pr a)
        (S.foldl (fun a m => insertByPrio pr m a) acc) := by
  intro S
  induction S with
  | nil => exact fun acc h => h
  | cons m S ih =>
      intro acc h
      exact ih _ (insertByPrio_pairwise pr m acc h)

theorem foldl_insertByPrio_perm {α : Type} (pr : α → Nat) :
    ∀ (S acc : List α),
      (S.foldl (fun a m => insertByPrio pr m a) acc).Perm (acc ++ S) := by
  intro S
  induction S with
  | nil => simp
  | cons m S ih =>
      intro acc
      refine (ih (insertByPrio pr m acc)).trans ?_
      refine (List.Perm.append_right S (insertByPrio_perm pr m acc)).trans ?_
      exact List.perm_middle.symm

theorem foldl_insertByPrio_filter {α : Type} (pr : α → Nat) (p : Nat) :
    ∀ (S acc : List α), List.Pairwise (fun a b => pr b ≤ pr a) acc →
      (S.foldl (fun a m => insertByPrio pr m a) acc).filter
          (fun x => decide (pr x = p))
        = acc.filter (fun x => decide (pr x = p))
          ++ S.filter (fun x => decide (pr x = p)) := by
  intro S
  induction S with
  | nil => simp
  | cons m S ih =>
      intro acc h
      rw [List.foldl_cons, ih _ (insertByPrio_pairwise pr m acc h),
        insertByPrio_filter pr m p acc h, List.filter_cons]
      by_cases hm : pr m = p
      · simp [hm]
      · simp [hm]

theorem insertByPrio_map_snd (e : QEntry) :
    ∀ l : List QEntry,
      (insertByPrio entryPrio e l).map Prod.snd
        = insertByPrio Prod.snd e.2 (l.map Prod.snd) := by
  intro l
  induction l with
  | nil => rfl
  | cons x xs ih =>
      by_cases hx : entryPrio x < entryPrio e
      · have : (x.2).2 < (e.2).2 := hx
        simp [insertByPrio, hx, entryPrio, this]
      · have : ¬ (x.2).2 < (e.2).2 := hx
        simp [insertByPrio, hx, entryPrio, this, ih]

/-! ### Ring manipulation lemmas -/

theorem mem_of_getLast?_eq {α : Type} {l : List α} {a : α}
    (h : l.getLast? = some a) : a ∈ l := by
  have hl := List.dropLast_append_getLast? a h
  rw [← hl]
  simp

theorem getLast?_not_mem_dropLast (l : List Nat) (hnd : l.Nodup) (a : Nat)
    (ha : l.getLast? = some a) : a ∉ l.dropLast := by
  have hl := List.dropLast_append_getLast? a ha
  rw [← hl, List.nodup_append] at hnd
  intro hmem
  exact hnd.2.2 hmem (by simp)

theorem chain_link_congr (f g : Nat → Nat) :
    ∀ l : List Nat, List.Chain' (fun x y => f x = y) l →
      (∀ a ∈ l.dropLast, f a = g a) →
      List.Chain' (fun x y => g x = y) l := by
  intro l
  induction l with
  | nil => simp
  | cons x xs ih =>
      cases xs with
      | nil => simp
      | cons y ys =>
          intro hc hfg
          rw [List.chain'_cons] at hc ⊢
          refine ⟨?_, ?_⟩
          · rw [← hc.1]
            exact (hfg x (by rw [List.dropLast_cons₂]; simp)).symm
          · refine ih hc.2 ?_
            intro a ha
            exact hfg a (by rw [List.dropLast_cons₂]; simp [ha])

theorem walkBack_stop (prioA prevA : Nat → Nat) (mprio : Nat) :
    ∀ (r : List Nat) (fuel : Nat) (x start : Nat),
      List.Chain' (fun a b => prevA a = b) (r ++ [x]) →
      (r ++ [x]).head? = some start →
      (∀ y ∈ r, prioA y < mprio) →
      ¬ prioA x < mprio →
      r.length ≤ fuel →
      MsgQueue.walkBack prioA prevA mprio fuel start = x := by
  intro r
  induction r with
  | nil =>
      intro fuel x start _ hstart _ hx _
      simp at hstart
      subst hstart
      cases fuel with
      | zero => rfl
      | succ f =>
          unfold MsgQueue.walkBack
          rw [if_neg hx]
  | cons y r ih =>
      intro fuel x start hchain hstart hmem hx hfuel
      simp at hstart
      subst hstart
      cases fuel with
      | zero => simp at hfuel
      | succ f =>
          unfold MsgQueue.walkBack
          rw [if_pos (hmem y (by simp))]
          obtain ⟨z, rest, hzr⟩ : ∃ z rest, r ++ [x] = z :: rest := by
            cases r with
            | nil => exact ⟨x, [], rfl⟩
            | cons a t => exact ⟨a, t ++ [x], rfl⟩
          have hchain' : List.Chain' (fun a b => prevA a = b)
              (y :: (z :: rest)) := by
            rw [← hzr]
            simpa using hchain
          rw [List.chain'_cons] at hchain'
          refine ih f x (prevA y) ?_ ?_ ?_ hx ?_
          · rw [hzr]
            exact hchain'.2
          · rw [hzr]
            simp [hchain'.1]
          · exact fun a ha => hmem a (by simp [ha])
          · simp at hfuel
            omega

theorem isRing_rotate (f : Nat → Nat) (a : Nat) (t : List Nat) :
    IsRing f (a :: t) ↔ IsRing f (t ++ [a]) := by
  cases ht : t with
  | nil => simp [IsRing]
  | cons b t' =>
      unfold IsRing
      rw [List.chain'_append]
      constructor
      · rintro ⟨hc, hcl⟩
        rw [List.chain'_cons] at hc
        refine ⟨⟨hc.2, by simp, ?_⟩, ?_⟩
        · intro x hx y hy
          simp at hy
          subst hy
          exact hcl x hx a (by simp)
        · intro x hx y hy
          rw [List.getLast?_concat] at hx
          simp at hx hy
          subst hx
          subst hy
          exact hc.1
      · rintro ⟨⟨hcbt, _, hcross⟩, hcl⟩
        constructor
        · rw [List.chain'_cons]
          refine ⟨?_, hcbt⟩
          exact hcl a (by rw [List.getLast?_concat]; rfl) b (by simp)
        · intro x hx y hy
          simp at hy
          subst hy
          exact hcross x hx a (by simp)

theorem ring_insert_next (next : Nat → Nat) (sP sS : List Nat)
    (msgIx ix : Nat) (hP : sP ≠ []) (hnd : (sP ++ sS).Nodup)
    (hnew : msgIx ∉ sP ++ sS) (hix : sP.getLast? = some ix)
    (hrN : IsRing next (sP ++ sS)) :
    IsRing (Function.update (Function.update next msgIx (next ix)) ix msgIx)
      (sP ++ msgIx :: sS) := by
  obtain ⟨hchain, hclose⟩ := hrN
  rw [List.chain'_append] at hchain
  obtain ⟨hcP, hcS, hcross⟩ := hchain
  rw [List.nodup_append] at hnd
  obtain ⟨hndP, hndS, hdisj⟩ := hnd
  have hmsgP : msgIx ∉ sP := fun h => hnew (List.mem_append_left _ h)
  have hmsgS : msgIx ∉ sS := fun h => hnew (List.mem_append_right _ h)
  have hixP : ix ∈ sP := mem_of_getLast?_eq hix
  have hmi : msgIx ≠ ix := fun h => hmsgP (h ▸ hixP)
  set n2 := Function.update (Function.update next msgIx (next ix)) ix msgIx
    with hn2
  have hq_ix : n2 ix = msgIx := Function.update_same _ _ _
  have hq_msg : n2 msgIx = next ix := by
    rw [hn2, Function.update_noteq hmi, Function.update_same]
  have hq_other : ∀ a, a ≠ ix → a ≠ msgIx → n2 a = next a := by
    intro a h1 h2
    rw [hn2, Function.update_noteq h1, Function.update_noteq h2]
  have hchainP : List.Chain' (fun x y => n2 x = y) sP := by
    refine chain_link_congr next n2 sP hcP ?_
    intro a ha
    have h1 : a ≠ ix := fun he =>
      getLast?_not_mem_dropLast sP hndP ix hix (he ▸ ha)
    have h2 : a ≠ msgIx := fun he => hmsgP (he ▸ List.dropLast_subset sP ha)
    exact (hq_other a h1 h2).symm
  rcases sS with _ | ⟨z, t⟩
  · constructor
    · rw [List.chain'_append]
      refine ⟨hchainP, by simp, ?_⟩
      intro x hx y hy
      simp at hy
      subst hy
      rw [hix] at hx
      simp at hx
      subst hx
      exact hq_ix
    · intro a ha b hb
      rw [List.getLast?_concat] at ha
      simp at ha
      subst ha
      rw [List.head?_append_of_ne_nil sP hP] at hb
      rw [hq_msg]
      refine hclose ix ?_ b ?_
      · simpa using hix
      · simpa using hb
  · have htmp : next ix = z := by
      refine hcross ix ?_ z ?_
      · rw [hix]; rfl
      · rfl
    constructor
    · rw [List.chain'_append]
      refine ⟨hchainP, ?_, ?_⟩
      · rw [List.chain'_cons]
        refine ⟨by rw [hq_msg, htmp], ?_⟩
        refine chain_link_congr next n2 _ hcS ?_
        intro a ha
        have haS : a ∈ z :: t := List.dropLast_subset _ ha
        have h1 : a ≠ ix := fun he => hdisj hixP (he ▸ haS)
        have h2 : a ≠ msgIx := fun he => hmsgS (he ▸ haS)
        exact (hq_other a h1 h2).symm
      · intro x hx y hy
        simp at hy
        subst hy
        rw [hix] at hx
        simp at hx
        subst hx
        exact hq_ix
    · intro a ha b hb
      rw [List.getLast?_append_cons, List.getLast?_cons_cons] at ha
      rw [List.head?_append_of_ne_nil sP hP] at hb
      have haS : a ∈ z :: t := mem_of_getLast?_eq ha
      have h1 : a ≠ ix := fun he => hdisj hixP (he ▸ haS)
      have h2 : a ≠ msgIx := fun he => hmsgS (he ▸ haS)
      rw [hq_other a h1 h2]
      refine hclose a ?_ b ?_
      · rw [List.getLast?_append_cons]
        exact ha
      · rw [List.head?_append_of_ne_nil sP hP]
        exact hb

theorem ring_insert_prev (next prev : Nat → Nat) (sP sS : List Nat)
    (msgIx ix : Nat) (hP : sP ≠ []) (hnd : (sP ++ sS).Nodup)
    (hnew : msgIx ∉ sP ++ sS) (hix : sP.getLast? = some ix)
    (hrN : IsRing next (sP ++ sS))
    (hrP : IsRing prev ((sP ++ sS).reverse)) :
    IsRing (Function.update (Function.update prev msgIx ix) (next ix) msgIx)
      ((sP ++ msgIx :: sS).reverse) := by
  obtain ⟨hchainN, hcloseN⟩ := hrN
  obtain ⟨hchainP, hcloseP⟩ := hrP
  rw [List.nodup_append] at hnd
  obtain ⟨hndP, hndS, hdisj⟩ := hnd
  have hmsgP : msgIx ∉ sP := fun h => hnew (List.mem_append_left _ h)
  have hmsgS : msgIx ∉ sS := fun h => hnew (List.mem_append_right _ h)
  have hixP : ix ∈ sP := mem_of_getLast?_eq hix
  have hmi : msgIx ≠ ix := fun h => hmsgP (h ▸ hixP)
  obtain ⟨hd, hhd⟩ : ∃ hd, sP.head? = some hd := by
    cases sP with
    | nil => exact absurd rfl hP
    | cons c cs => exact ⟨c, rfl⟩
  have hhdP : hd ∈ sP := by
    cases sP with
    | nil => exact absurd rfl hP
    | cons c cs =>
        simp at hhd
        simp [hhd]
  set p2 := Function.update (Function.update prev msgIx ix) (next ix) msgIx
    with hp2
  rcases sS with _ | ⟨z, t⟩
  · have htmp : next ix = hd := by
      refine hcloseN ix ?_ hd ?_
      · simpa using hix
      · simpa using hhd
    have hq_tmp : p2 hd = msgIx := by
      rw [hp2, htmp, Function.update_same]
    have hq_msg : p2 msgIx = ix := by
      have hne : msgIx ≠ next ix := by
        rw [htmp]
        exact fun he => hmsgP (he ▸ hhdP)
      rw [hp2, Function.update_noteq hne, Function.update_same]
    have hq_other : ∀ a, a ≠ hd → a ≠ msgIx → p2 a = prev a := by
      intro a h1 h2
      rw [hp2, Function.update_noteq (htmp ▸ h1 : a ≠ next ix),
        Function.update_noteq h2]
    have htarget : (sP ++ [msgIx]).reverse = msgIx :: sP.reverse := by
      simp
    rw [htarget]
    have hchainP' : List.Chain' (fun x y => prev x = y) sP.reverse := by
      simpa using hchainP
    have hrevP : sP.reverse ≠ [] := by simpa using hP
    constructor
    · rw [show (msgIx :: sP.reverse) = [msgIx] ++ sP.reverse from rfl,
        List.chain'_append]
      refine ⟨by simp, ?_, ?_⟩
      · refine chain_link_congr prev p2 sP.reverse hchainP' ?_
        intro a ha
        have h1 : a ≠ hd := by
          intro he
          refine getLast?_not_mem_dropLast sP.reverse
            (List.nodup_reverse.mpr hndP) hd ?_ (he ▸ ha)
          rw [List.getLast?_reverse]
          exact hhd
        have h2 : a ≠ msgIx := fun he =>
          hmsgP (he ▸ (List.mem_reverse.mp (List.dropLast_subset _ ha)))
        exact (hq_other a h1 h2).symm
      · intro x hx y hy
        simp at hx
        subst hx
        rw [List.head?_reverse, hix] at hy
        simp at hy
        subst hy
        exact hq_msg
    · intro a ha b hb
      simp at hb
      subst hb
      have ha' : a ∈ sP.reverse.getLast? := by
        rcases hrev : sP.reverse with _ | ⟨c, cs⟩
        · exact absurd hrev hrevP
        · rw [hrev, List.getLast?_cons_cons] at ha
          exact ha
      rw [List.getLast?_reverse, hhd] at ha'
      simp at ha'
      subst ha'
      exact hq_tmp
  · have htmp : next ix = z := by
      rw [List.chain'_append] at hchainN
      refine hchainN.2.2 ix ?_ z ?_
      · rw [hix]; rfl
      · rfl
    have hq_tmp : p2 z = msgIx := by
      rw [hp2, htmp, Function.update_same]
    have hq_msg : p2 msgIx = ix := by
      have hne : msgIx ≠ next ix := by
        rw [htmp]
        exact fun he => hmsgS (by rw [he]; exact List.mem_cons_self z t)
      rw [hp2, Function.update_noteq hne, Function.update_same]
    have hq_other : ∀ a, a ≠ z → a ≠ msgIx → p2 a = prev a := by
      intro a h1 h2
      rw [hp2, Function.update_noteq (htmp ▸ h1 : a ≠ next ix),
        Function.update_noteq h2]
    have htarget : (sP ++ msgIx :: z :: t).reverse
        = (z :: t).reverse ++ (msgIx :: sP.reverse) := by
      simp
    rw [htarget]
    have hchainsplit := hchainP
    rw [show (sP ++ z :: t).reverse = (z :: t).reverse ++ sP.reverse by simp,
      List.chain'_append] at hchainsplit
    obtain ⟨hcS', hcP', hcross'⟩ := hchainsplit
    have hrevP : sP.reverse ≠ [] := by simpa using hP
    constructor
    · rw [List.chain'_append]
      refine ⟨?_, ?_, ?_⟩
      · refine chain_link_congr prev p2 (z :: t).reverse hcS' ?_
        intro a ha
        have h1 : a ≠ z := by
          intro he
          refine getLast?_not_mem_dropLast (z :: t).reverse
            (List.nodup_reverse.mpr hndS) z ?_ (he ▸ ha)
          rw [List.getLast?_reverse]
          rfl
        have h2 : a ≠ msgIx := fun he =>
          hmsgS (he ▸ (List.mem_reverse.mp (List.dropLast_subset _ ha)))
        exact (hq_other a h1 h2).symm
      · rw [show (msgIx :: sP.reverse) = [msgIx] ++ sP.reverse from rfl,
          List.chain'_append]
        refine ⟨by simp, ?_, ?_⟩
        · refine chain_link_congr prev p2 sP.reverse hcP' ?_
          intro a ha
          have haP : a ∈ sP :=
            List.mem_reverse.mp (List.dropLast_subset _ ha)
          have h1 : a ≠ z := fun he => hdisj haP (by simp [he])
          have h2 : a ≠ msgIx := fun he => hmsgP (he ▸ haP)
          exact (hq_other a h1 h2).symm
        · intro x hx y hy
          simp at hx
          subst hx
          rw [List.head?_reverse, hix] at hy
          simp at hy
          subst hy
          exact hq_msg
      · intro x hx y hy
        rw [List.getLast?_reverse] at hx
        simp at hx hy
        subst hx
        subst hy
        exact hq_tmp
    · intro a ha b hb
      rw [List.getLast?_append_of_ne_nil _ (by simp)] at ha
      have ha' : a ∈ sP.reverse.getLast? := by
        rcases hrev : sP.reverse with _ | ⟨c, cs⟩
        · exact absurd hrev hrevP
        · rw [hrev, List.getLast?_cons_cons] at ha
          exact ha
      rw [List.getLast?_reverse, hhd] at ha'
      simp at ha'
      subst ha'
      rw [List.head?_append_of_ne_nil _ (by simp), List.head?_reverse] at hb
      have h1 : hd ≠ z := fun he => hdisj hhdP (by simp [he])
      have h2 : hd ≠ msgIx := fun he => hmsgP (he ▸ hhdP)
      rw [hq_other hd h1 h2]
      refine hcloseP hd ?_ b ?_
      · rw [List.getLast?_reverse, List.head?_append_of_ne_nil sP hP, hhd]
        rfl
      · rw [List.head?_reverse, List.getLast?_append_cons]
        exact hb

theorem ring_remove (next prev : Nat → Nat) (h z w : Nat) (s2 : List Nat)
    (hs2h : s2.head? = some z) (hs2l : s2.getLast? = some w)
    (hnd : (h :: s2).Nodup)
    (hrN : IsRing next (h :: s2)) (hrP : IsRing prev ((h :: s2).reverse)) :
    next h = z ∧ prev h = w ∧
    Function.update prev z w h = w ∧
    Function.update next w z h = z ∧
    IsRing (Function.update next w z) s2 ∧
    IsRing (Function.update prev z w) s2.reverse := by
  obtain ⟨hchainN, hcloseN⟩ := hrN
  obtain ⟨hchainP, hcloseP⟩ := hrP
  have hs2 : s2 ≠ [] := by
    intro he
    rw [he] at hs2h
    simp at hs2h
  have hzmem : z ∈ s2 := by
    cases s2 with
    | nil => exact absurd rfl hs2
    | cons c cs =>
        simp at hs2h
        simp [hs2h]
  have hwmem : w ∈ s2 := mem_of_getLast?_eq hs2l
  rw [List.nodup_cons] at hnd
  obtain ⟨hh, hnd2⟩ := hnd
  have hhz : h ≠ z := fun he => hh (he ▸ hzmem)
  have hhw : h ≠ w := fun he => hh (he ▸ hwmem)
  have hnz : next h = z := by
    rcases s2 with _ | ⟨c, cs⟩
    · exact absurd rfl hs2
    · simp at hs2h
      rw [List.chain'_cons] at hchainN
      rw [hchainN.1, hs2h]
  have hpw : prev h = w := by
    refine hcloseP h ?_ w ?_
    · rw [List.getLast?_reverse]
      rfl
    · rw [List.head?_reverse]
      rcases s2 with _ | ⟨c, cs⟩
      · exact absurd rfl hs2
      · rw [List.getLast?_cons_cons]
        exact hs2l
  refine ⟨hnz, hpw, ?_, ?_, ?_, ?_⟩
  · rw [Function.update_noteq hhz]
    exact hpw
  · rw [Function.update_noteq hhw]
    exact hnz
  · constructor
    · refine chain_link_congr next (Function.update next w z) s2
        hchainN.tail ?_
      intro a ha
      have h1 : a ≠ w := fun he =>
        getLast?_not_mem_dropLast s2 hnd2 w hs2l (he ▸ ha)
      exact (Function.update_noteq h1 _ _).symm
    · intro a ha b hb
      rw [hs2l] at ha
      rw [hs2h] at hb
      simp at ha hb
      subst ha
      subst hb
      exact Function.update_same _ _ _
  · have hchainP2 : List.Chain' (fun x y => prev x = y) s2.reverse := by
      rw [List.reverse_cons, List.chain'_append] at hchainP
      exact hchainP.1
    constructor
    · refine chain_link_congr prev (Function.update prev z w) s2.reverse
        hchainP2 ?_
      intro a ha
      have h1 : a ≠ z := by
        intro he
        refine getLast?_not_mem_dropLast s2.reverse
          (List.nodup_reverse.mpr hnd2) z ?_ (he ▸ ha)
        rw [List.getLast?_reverse]
        exact hs2h
      exact (Function.update_noteq h1 _ _).symm
    · intro a ha b hb
      rw [List.getLast?_reverse, hs2h] at ha
      rw [List.head?_reverse, hs2l] at hb
      simp at ha hb
      subst ha
      subst hb
      exact Function.update_same _ _ _

/-- Two distinct payload slots occupy disjoint byte windows. -/
theorem slot_window_disjoint (M s t i : Nat) (hi : i < M) (hst : s ≠ t) :
    ¬ (t * M ≤ s * M + i ∧ s * M + i < t * M + M) := by
  rintro ⟨h1, h2⟩
  rcases Nat.lt_or_ge s t with h | h
  · have hle : s + 1 ≤ t := h
    have hmul : s * M + M ≤ t * M := by
      have hm := Nat.mul_le_mul_right M hle
      calc s * M + M = (s + 1) * M := by ring
      _ ≤ t * M := hm
    omega
  · have h' : t < s := lt_of_le_of_ne h (Ne.symm hst)
    have hmul : t * M + M ≤ s * M := by
      have hm := Nat.mul_le_mul_right M h'
      calc t * M + M = (t + 1) * M := by ring
      _ ≤ s * M := hm
    omega

/-- Simulation of `_try_send` with a free block available: the send
succeeds and the queue refines the stable priority insertion of the new
message into the abstract content list. -/
theorem try_send_sim (q : MsgQueue) (l : List QEntry) (inv : QInv q l)
    (bs : List Nat) (hbs : bs.length = q.msgSizeBytes) (mprio : Nat)
    (dest : Nat) (restFree : List Nat)
    (hfree : q.firstFree = dest :: restFree) :
    ∃ q', MsgQueue._try_send q (bufOfList bs) q.msgSizeBytes mprio
        = (true, q')
      ∧ QInv q' (insertByPrio entryPrio
          (dest / q.msgSizeBytes, bs, mprio) l)
      ∧ q'.msgs = q.msgs ∧ q'.msgSizeBytes = q.msgSizeBytes := by
  obtain ⟨hMpos, hheadEq, hcountEq, hnodup, hmemLt, hringN, hringP, hsorted,
    hprioEq, hbytesLen, hpayloadEq, hfreeOff, hfreeDisj, hfreeNodup,
    htotalEq⟩ := inv
  have hdestF : dest ∈ q.firstFree := by rw [hfree]; simp
  obtain ⟨hdmod, hdlt⟩ := hfreeOff dest hdestF
  have hdest : dest / q.msgSizeBytes * q.msgSizeBytes = dest :=
    Nat.div_mul_cancel (Nat.dvd_of_mod_eq_zero hdmod)
  have hfresh : dest / q.msgSizeBytes ∉ l.map Prod.fst := hfreeDisj dest hdestF
  have hfreeNodup' : (dest / q.msgSizeBytes)
      ∉ restFree.map (· / q.msgSizeBytes) := by
    rw [hfree] at hfreeNodup
    simp only [List.map_cons, List.nodup_cons] at hfreeNodup
    exact hfreeNodup.1
  have hfreeNodupRest : (restFree.map (· / q.msgSizeBytes)).Nodup := by
    rw [hfree] at hfreeNodup
    simp only [List.map_cons, List.nodup_cons] at hfreeNodup
    exact hfreeNodup.2
  have hpil : ¬ (q.msgSizeBytes < q.msgSizeBytes) := lt_irrefl _
  have hpayNew : ∀ i < q.msgSizeBytes,
      memcpy q.payload dest (bufOfList bs) 0 q.msgSizeBytes
        (dest / q.msgSizeBytes * q.msgSizeBytes + i) = bs.getD i 0 := by
    intro i hi
    rw [hdest]
    simp [memcpy, bufOfList, hi]
  have hpayOld : ∀ s', s' ≠ dest / q.msgSizeBytes → ∀ i < q.msgSizeBytes,
      memcpy q.payload dest (bufOfList bs) 0 q.msgSizeBytes
        (s' * q.msgSizeBytes + i) = q.payload (s' * q.msgSizeBytes + i) := by
    intro s' hs' i hi
    have hwin := slot_window_disjoint q.msgSizeBytes s'
      (dest / q.msgSizeBytes) i hi hs'
    rw [hdest] at hwin
    simp only [memcpy]
    rw [if_neg (by omega)]
  -- facts shared by all result shapes
  have hmemLt' : ∀ x ∈ insertByPrio entryPrio
      (dest / q.msgSizeBytes, bs, mprio) l, x.1 < q.msgs := by
    intro x hx
    rcases (insertByPrio_mem _ _ x l).mp hx with hx | hx
    · rw [hx]
      exact hdlt
    · exact hmemLt x hx
  have hperm := insertByPrio_perm entryPrio
    (dest / q.msgSizeBytes, bs, mprio) l
  have hpermS : ((insertByPrio entryPrio
        (dest / q.msgSizeBytes, bs, mprio) l).map Prod.fst).Perm
      (dest / q.msgSizeBytes :: l.map Prod.fst) := by
    simpa using hperm.map Prod.fst
  have hnodup' : ((insertByPrio entryPrio
      (dest / q.msgSizeBytes, bs, mprio) l).map Prod.fst).Nodup := by
    rw [hpermS.nodup_iff]
    exact List.nodup_cons.mpr ⟨hfresh, hnodup⟩
  have hcount' : (insertByPrio entryPrio
      (dest / q.msgSizeBytes, bs, mprio) l).length = l.length + 1 := by
    rw [hperm.length_eq]
    rfl
  have hsorted' := insertByPrio_pairwise entryPrio
    (dest / q.msgSizeBytes, bs, mprio) l hsorted
  have hprioEq' : ∀ x ∈ insertByPrio entryPrio
      (dest / q.msgSizeBytes, bs, mprio) l,
      Function.update q.prioA (dest / q.msgSizeBytes) mprio x.1
        = entryPrio x := by
    intro x hx
    rcases (insertByPrio_mem _ _ x l).mp hx with hx | hx
    · rw [hx]
      exact Function.update_same _ _ _
    · have hne : x.1 ≠ dest / q.msgSizeBytes := by
        intro he
        exact hfresh (he ▸ List.mem_map_of_mem Prod.fst hx)
      rw [Function.update_noteq hne]
      exact hprioEq x hx
  have hbytesLen' : ∀ x ∈ insertByPrio entryPrio
      (dest / q.msgSizeBytes, bs, mprio) l,
      x.2.1.length = q.msgSizeBytes := by
    intro x hx
    rcases (insertByPrio_mem _ _ x l).mp hx with hx | hx
    · rw [hx]
      exact hbs
    · exact hbytesLen x hx
  have hpayloadEq' : ∀ x ∈ insertByPrio entryPrio
      (dest / q.msgSizeBytes, bs, mprio) l, ∀ i < q.msgSizeBytes,
      memcpy q.payload dest (bufOfList bs) 0 q.msgSizeBytes
        (x.1 * q.msgSizeBytes + i) = x.2.1.getD i 0 := by
    intro x hx i hi
    rcases (insertByPrio_mem _ _ x l).mp hx with hx | hx
    · rw [hx]
      exact hpayNew i hi
    · have hne : x.1 ≠ dest / q.msgSizeBytes := by
        intro he
        exact hfresh (he ▸ List.mem_map_of_mem Prod.fst hx)
      rw [hpayOld x.1 hne i hi]
      exact hpayloadEq x hx i hi
  have hfreeOff' : ∀ d ∈ restFree,
      d % q.msgSizeBytes = 0 ∧ d / q.msgSizeBytes < q.msgs := by
    intro d hd
    exact hfreeOff d (by rw [hfree]; simp [hd])
  have hfreeDisj' : ∀ d ∈ restFree, d / q.msgSizeBytes
      ∉ (insertByPrio entryPrio (dest / q.msgSizeBytes, bs, mprio) l).map
        Prod.fst := by
    intro d hd
    rw [hpermS.mem_iff]
    intro hmem
    rcases List.mem_cons.mp hmem with hmem | hmem
    · exact hfreeNodup' (hmem ▸ List.mem_map_of_mem _ hd)
    · exact hfreeDisj d (by rw [hfree]; simp [hd]) hmem
  have htotalEq' : (insertByPrio entryPrio
      (dest / q.msgSizeBytes, bs, mprio) l).length + restFree.length
        = q.msgs := by
    rw [hcount']
    rw [hfree] at htotalEq
    simp at htotalEq
    omega
  rcases l with _ | ⟨e0, l2⟩
  · -- empty queue: the new slot forms a self-linked singleton ring
    have hhead : q.head = none := by simpa using hheadEq
    have hins : insertByPrio entryPrio (dest / q.msgSizeBytes, bs, mprio) []
        = [(dest / q.msgSizeBytes, bs, mprio)] := rfl
    have hcomp : MsgQueue._try_send q (bufOfList bs) q.msgSizeBytes mprio
        = (true,
          { q with
            prioA := Function.update q.prioA (dest / q.msgSizeBytes) mprio
            head := some (dest / q.msgSizeBytes)
            prevA := Function.update q.prevA (dest / q.msgSizeBytes)
              (dest / q.msgSizeBytes)
            nextA := Function.update q.nextA (dest / q.msgSizeBytes)
              (dest / q.msgSizeBytes)
            firstFree := restFree
            count := q.count + 1
            payload := memcpy q.payload dest (bufOfList bs) 0 q.msgSizeBytes
            receiveList := q.receiveList.drop 1 }) := by
      simp only [MsgQueue._try_send, hfree, hhead]
      rw [if_neg hpil]
    refine ⟨_, hcomp, ?_, rfl, rfl⟩
    refine ⟨hMpos, by rw [hins]; rfl, ?_, hnodup', hmemLt', ?_, ?_,
      hsorted', hprioEq', hbytesLen', hpayloadEq', hfreeOff', hfreeDisj',
      hfreeNodupRest, htotalEq'⟩
    · rw [hins]
      simpa using hcountEq
    · rw [hins]
      refine ⟨by simp, ?_⟩
      intro a ha b hb
      simp at ha hb
      subst ha
      subst hb
      exact Function.update_same _ _ _
    · rw [hins]
      refine ⟨by simp, ?_⟩
      intro a ha b hb
      simp at ha hb
      subst ha
      subst hb
      exact Function.update_same _ _ _
  · -- non-empty queue
    have hhead : q.head = some e0.1 := by rw [hheadEq]; rfl
    have hs_ne : (e0 :: l2).map Prod.fst ≠ [] := by simp
    obtain ⟨w, hwlast⟩ : ∃ w, ((e0 :: l2).map Prod.fst).getLast? = some w :=
      ⟨_, List.getLast?_eq_getLast_of_ne_nil hs_ne⟩
    have hpw : q.prevA e0.1 = w := by
      obtain ⟨_, hcloseP⟩ := hringP
      refine hcloseP e0.1 ?_ w ?_
      · rw [List.getLast?_reverse]
        rfl
      · rw [List.head?_reverse]
        exact hwlast
    have he0fresh : e0.1 ≠ dest / q.msgSizeBytes := by
      intro he
      exact hfresh (he ▸ by simp)
    have hupd0 : Function.update q.prioA (dest / q.msgSizeBytes) mprio e0.1
        = entryPrio e0 := by
      rw [Function.update_noteq he0fresh]
      exact hprioEq e0 (List.mem_cons_self e0 l2)
    by_cases hB : entryPrio e0 < mprio
    · -- strictly higher priority than the head: new head, spliced at front
      have hcnd : mprio > Function.update q.prioA
          (dest / q.msgSizeBytes) mprio e0.1 := by
        rw [hupd0]
        exact hB
      have hwmem : w ∈ (e0 :: l2).map Prod.fst := mem_of_getLast?_eq hwlast
      have hwne : w ≠ dest / q.msgSizeBytes := by
        intro he
        exact hfresh (he ▸ hwmem)
      have hB' : entryPrio e0
          < entryPrio (dest / q.msgSizeBytes, bs, mprio) := hB
      have hins : insertByPrio entryPrio
          (dest / q.msgSizeBytes, bs, mprio) (e0 :: l2)
          = (dest / q.msgSizeBytes, bs, mprio) :: e0 :: l2 := by
        simp only [insertByPrio]
        rw [if_pos hB']
      have hcomp : MsgQueue._try_send q (bufOfList bs) q.msgSizeBytes mprio
          = (true,
            { q with
              prioA := Function.update q.prioA (dest / q.msgSizeBytes) mprio
              head := some (dest / q.msgSizeBytes)
              prevA := Function.update
                (Function.update q.prevA (dest / q.msgSizeBytes) w)
                (q.nextA w) (dest / q.msgSizeBytes)
              nextA := Function.update
                (Function.update q.nextA (dest / q.msgSizeBytes)
                  (q.nextA w)) w (dest / q.msgSizeBytes)
              firstFree := restFree
              count := q.count + 1
              payload := memcpy q.payload dest (bufOfList bs) 0
                q.msgSizeBytes
              receiveList := q.receiveList.drop 1 }) := by
        simp only [MsgQueue._try_send, hfree, hhead]
        rw [if_pos hcnd, hpw, if_neg hpil,
          Function.update_noteq hwne, if_pos hcnd]
      have hringN2 := ring_insert_next q.nextA ((e0 :: l2).map Prod.fst) []
        (dest / q.msgSizeBytes) w hs_ne (by simpa using hnodup)
        (by simpa using hfresh) (by simpa using hwlast)
        (by simpa using hringN)
      have hringP2 := ring_insert_prev q.nextA q.prevA
        ((e0 :: l2).map Prod.fst) [] (dest / q.msgSizeBytes) w hs_ne
        (by simpa using hnodup) (by simpa using hfresh)
        (by simpa using hwlast) (by simpa using hringN)
        (by simpa using hringP)
      refine ⟨_, hcomp, ?_, rfl, rfl⟩
      refine ⟨hMpos, by rw [hins]; rfl, ?_, hnodup', hmemLt', ?_, ?_,
        hsorted', hprioEq', hbytesLen', hpayloadEq', hfreeOff', hfreeDisj',
        hfreeNodupRest, htotalEq'⟩
      · rw [hcount']
        simpa using hcountEq
      · -- next ring
        have hrot := (isRing_rotate
            (Function.update
              (Function.update q.nextA (dest / q.msgSizeBytes)
                (q.nextA w)) w (dest / q.msgSizeBytes))
            (dest / q.msgSizeBytes)
            ((e0 :: l2).map Prod.fst)).mpr (by simpa using hringN2)
        rw [hins]
        simpa using hrot
      · -- prev ring
        have hrot := (isRing_rotate
            (Function.update
              (Function.update q.prevA (dest / q.msgSizeBytes) w)
              (q.nextA w) (dest / q.msgSizeBytes))
            (dest / q.msgSizeBytes)
            (((e0 :: l2).map Prod.fst).reverse)).mp
          (by simpa using hringP2)
        rw [hins]
        simpa using hrot
    · -- at most the head priority: walk back from the tail and splice
      have hcnd : ¬ mprio > Function.update q.prioA
          (dest / q.msgSizeBytes) mprio e0.1 := by
        rw [hupd0]
        exact hB
      have hpredE0 : (fun x => ! decide (entryPrio x < mprio)) e0 = true := by
        simp [hB]
      have hP : (e0 :: l2).takeWhile (fun x => ! decide (entryPrio x < mprio))
          = e0 :: l2.takeWhile (fun x => ! decide (entryPrio x < mprio)) :=
        List.takeWhile_cons_of_pos hpredE0
      have hD : (e0 :: l2).dropWhile (fun x => ! decide (entryPrio x < mprio))
          = l2.dropWhile (fun x => ! decide (entryPrio x < mprio)) :=
        List.dropWhile_cons_of_pos hpredE0
      have hPne : (e0 :: l2).takeWhile
          (fun x => ! decide (entryPrio x < mprio)) ≠ [] := by
        rw [hP]
        simp
      have hsplit : (e0 :: l2).takeWhile
            (fun x => ! decide (entryPrio x < mprio))
          ++ (e0 :: l2).dropWhile (fun x => ! decide (entryPrio x < mprio))
          = e0 :: l2 := List.takeWhile_append_dropWhile _ _
      have hins : insertByPrio entryPrio
          (dest / q.msgSizeBytes, bs, mprio) (e0 :: l2)
          = (e0 :: l2).takeWhile (fun x => ! decide (entryPrio x < mprio))
            ++ (dest / q.msgSizeBytes, bs, mprio)
              :: (e0 :: l2).dropWhile
                (fun x => ! decide (entryPrio x < mprio)) := by
        rw [insertByPrio_eq]
        rfl
      have hPmem : ∀ x ∈ (e0 :: l2).takeWhile
          (fun x => ! decide (entryPrio x < mprio)), ¬ entryPrio x < mprio :=
        fun x hx => by simpa using List.mem_takeWhile_imp hx
      have hDmem : ∀ x ∈ (e0 :: l2).dropWhile
          (fun x => ! decide (entryPrio x < mprio)), entryPrio x < mprio :=
        fun x hx => dropWhile_prio_lt entryPrio
          (dest / q.msgSizeBytes, bs, mprio) (e0 :: l2) hsorted x hx
      have hPsub : ((e0 :: l2).takeWhile
          (fun x => ! decide (entryPrio x < mprio))).Sublist (e0 :: l2) :=
        List.takeWhile_sublist _
      have hDsub : ((e0 :: l2).dropWhile
          (fun x => ! decide (entryPrio x < mprio))).Sublist (e0 :: l2) :=
        List.dropWhile_sublist _
      obtain ⟨ixE, hixE⟩ : ∃ ixE, ((e0 :: l2).takeWhile
          (fun x => ! decide (entryPrio x < mprio))).getLast? = some ixE :=
        ⟨_, List.getLast?_eq_getLast_of_ne_nil hPne⟩
      have hixEP : ixE ∈ (e0 :: l2).takeWhile
          (fun x => ! decide (entryPrio x < mprio)) := mem_of_getLast?_eq hixE
      have hixEl : ixE ∈ e0 :: l2 := List.Sublist.mem hixEP hPsub
      have hixfresh : ixE.1 ≠ dest / q.msgSizeBytes := by
        intro he
        exact hfresh (he ▸ List.mem_map_of_mem Prod.fst hixEl)
      have hsPlast : (((e0 :: l2).takeWhile
            (fun x => ! decide (entryPrio x < mprio))).map
          Prod.fst).getLast? = some ixE.1 := by
        rw [List.getLast?_map, hixE]
        rfl
      have hmapsplit : ((e0 :: l2).takeWhile
            (fun x => ! decide (entryPrio x < mprio))).map Prod.fst
          ++ ((e0 :: l2).dropWhile
            (fun x => ! decide (entryPrio x < mprio))).map Prod.fst
          = (e0 :: l2).map Prod.fst := by
        rw [← List.map_append, hsplit]
      -- the backward walk stops at the last slot of the kept prefix
      obtain ⟨rest, hrest⟩ : ∃ rest, (((e0 :: l2).takeWhile
            (fun x => ! decide (entryPrio x < mprio))).map
          Prod.fst).reverse = ixE.1 :: rest := by
        rcases hr : (((e0 :: l2).takeWhile
            (fun x => ! decide (entryPrio x < mprio))).map
          Prod.fst).reverse with _ | ⟨c, cs⟩
        · exfalso
          have : ((e0 :: l2).takeWhile
              (fun x => ! decide (entryPrio x < mprio))).map Prod.fst
              = [] := by
            have := congrArg List.reverse hr
            simpa using this
          rw [this] at hsPlast
          simp at hsPlast
        · have hc : ixE.1 = c := by
            have h1 := congrArg List.head? hr
            rw [List.head?_reverse, hsPlast] at h1
            simpa using h1
          exact ⟨cs, by rw [hc]⟩
      have hchainP' := hringP.1
      have hrevsplit : ((e0 :: l2).map Prod.fst).reverse
          = (((e0 :: l2).dropWhile
              (fun x => ! decide (entryPrio x < mprio))).map
            Prod.fst).reverse
          ++ (((e0 :: l2).takeWhile
              (fun x => ! decide (entryPrio x < mprio))).map
            Prod.fst).reverse := by
        rw [← List.reverse_append, hmapsplit]
      have hchainwalk : List.Chain' (fun a b => q.prevA a = b)
          ((((e0 :: l2).dropWhile
              (fun x => ! decide (entryPrio x < mprio))).map
            Prod.fst).reverse ++ [ixE.1]) := by
        refine List.Chain'.prefix hchainP' ?_
        rw [hrevsplit, hrest]
        exact ⟨rest, by rw [List.append_assoc]; rfl⟩
      have hstart : ((((e0 :: l2).dropWhile
              (fun x => ! decide (entryPrio x < mprio))).map
            Prod.fst).reverse ++ [ixE.1]).head? = some w := by
        rcases hD2 : ((e0 :: l2).dropWhile
            (fun x => ! decide (entryPrio x < mprio))).map Prod.fst
          with _ | ⟨d0, ds⟩
        · simp only [List.reverse_nil, List.nil_append, List.head?_cons]
          rw [hD2] at hmapsplit
          simp at hmapsplit
          simp only [List.map_cons] at hwlast
          rw [hmapsplit] at hsPlast
          rw [hsPlast] at hwlast
          simpa using hwlast
        · rw [List.head?_append_of_ne_nil _ (by simp), List.head?_reverse]
          have hgl : ((e0 :: l2).map Prod.fst).getLast?
              = (d0 :: ds).getLast? := by
            rw [← hmapsplit, hD2]
            exact List.getLast?_append_of_ne_nil _ (by simp)
          rw [← hgl]
          exact hwlast
      have hmemr : ∀ y ∈ ((((e0 :: l2).dropWhile
            (fun x => ! decide (entryPrio x < mprio))).map
          Prod.fst).reverse),
          Function.update q.prioA (dest / q.msgSizeBytes) mprio y
            < mprio := by
        intro y hy
        rw [List.mem_reverse] at hy
        rcases List.mem_map.mp hy with ⟨x, hx, hxy⟩
        have hxl : x ∈ e0 :: l2 := List.Sublist.mem hx hDsub
        have hyne : y ≠ dest / q.msgSizeBytes := by
          intro he
          exact hfresh (he ▸ hxy ▸ List.mem_map_of_mem Prod.fst hxl)
        rw [Function.update_noteq hyne, ← hxy, hprioEq x hxl]
        exact hDmem x hx
      have hnotx : ¬ Function.update q.prioA (dest / q.msgSizeBytes) mprio
          ixE.1 < mprio := by
        rw [Function.update_noteq hixfresh, hprioEq ixE hixEl]
        exact hPmem ixE hixEP
      have hfuel : ((((e0 :: l2).dropWhile
            (fun x => ! decide (entryPrio x < mprio))).map
          Prod.fst).reverse).length ≤ q.msgs := by
        have h1 := hDsub.length_le
        rw [hfree] at htotalEq
        simp at htotalEq ⊢
        omega
      have hwalk : MsgQueue.walkBack
          (Function.update q.prioA (dest / q.msgSizeBytes) mprio) q.prevA
          mprio q.msgs (q.prevA e0.1) = ixE.1 := by
        rw [hpw]
        exact walkBack_stop _ _ _ _ q.msgs ixE.1 w hchainwalk hstart hmemr
          hnotx hfuel
      have hcomp : MsgQueue._try_send q (bufOfList bs) q.msgSizeBytes mprio
          = (true,
            { q with
              prioA := Function.update q.prioA (dest / q.msgSizeBytes) mprio
              head := some e0.1
              prevA := Function.update
                (Function.update q.prevA (dest / q.msgSizeBytes) ixE.1)
                (q.nextA ixE.1) (dest / q.msgSizeBytes)
              nextA := Function.update
                (Function.update q.nextA (dest / q.msgSizeBytes)
                  (q.nextA ixE.1)) ixE.1 (dest / q.msgSizeBytes)
              firstFree := restFree
              count := q.count + 1
              payload := memcpy q.payload dest (bufOfList bs) 0
                q.msgSizeBytes
              receiveList := q.receiveList.drop 1 }) := by
        simp only [MsgQueue._try_send, hfree, hhead]
        rw [if_neg hcnd, hwalk, if_neg hpil,
          Function.update_noteq hixfresh, if_neg hcnd]
      have hndS : (((e0 :: l2).takeWhile
            (fun x => ! decide (entryPrio x < mprio))).map Prod.fst
          ++ ((e0 :: l2).dropWhile
            (fun x => ! decide (entryPrio x < mprio))).map
          Prod.fst).Nodup := by
        rw [hmapsplit]
        exact hnodup
      have hnewS : dest / q.msgSizeBytes ∉ ((e0 :: l2).takeWhile
            (fun x => ! decide (entryPrio x < mprio))).map Prod.fst
          ++ ((e0 :: l2).dropWhile
            (fun x => ! decide (entryPrio x < mprio))).map Prod.fst := by
        rw [hmapsplit]
        exact hfresh
      have hsPne : ((e0 :: l2).takeWhile
          (fun x => ! decide (entryPrio x < mprio))).map Prod.fst ≠ [] := by
        simp [hPne]
      have hrNs : IsRing q.nextA (((e0 :: l2).takeWhile
            (fun x => ! decide (entryPrio x < mprio))).map Prod.fst
          ++ ((e0 :: l2).dropWhile
            (fun x => ! decide (entryPrio x < mprio))).map Prod.fst) := by
        rw [hmapsplit]
        exact hringN
      have hrPs : IsRing q.prevA ((((e0 :: l2).takeWhile
            (fun x => ! decide (entryPrio x < mprio))).map Prod.fst
          ++ ((e0 :: l2).dropWhile
            (fun x => ! decide (entryPrio x < mprio))).map
          Prod.fst).reverse) := by
        rw [hmapsplit]
        exact hringP
      have hringN2 := ring_insert_next q.nextA _ _ (dest / q.msgSizeBytes)
        ixE.1 hsPne hndS hnewS hsPlast hrNs
      have hringP2 := ring_insert_prev q.nextA q.prevA _ _
        (dest / q.msgSizeBytes) ixE.1 hsPne hndS hnewS hsPlast hrNs hrPs
      refine ⟨_, hcomp, ?_, rfl, rfl⟩
      refine ⟨hMpos, ?_, ?_, hnodup', hmemLt', ?_, ?_,
        hsorted', hprioEq', hbytesLen', hpayloadEq', hfreeOff', hfreeDisj',
        hfreeNodupRest, htotalEq'⟩
      · rw [hins, hP]
        rfl
      · rw [hcount']
        simpa using hcountEq
      · rw [hins]
        simp only [List.map_append, List.map_cons]
        exact hringN2
      · rw [hins]
        simp only [List.map_append, List.map_cons]
        exact hringP2

/-- Simulation of `_try_receive` on a non-empty abstract queue: the head
entry's payload and priority come out, and the queue refines the tail. -/
theorem try_receive_sim (q : MsgQueue) (e : QEntry) (l : List QEntry)
    (inv : QInv q (e :: l)) (buf : Nat → Nat) :
    ∃ q', MsgQueue._try_receive q buf q.msgSizeBytes
        = some (memcpy buf 0 q.payload (e.1 * q.msgSizeBytes)
            q.msgSizeBytes, e.2.2, q')
      ∧ (List.range q.msgSizeBytes).map
          (memcpy buf 0 q.payload (e.1 * q.msgSizeBytes) q.msgSizeBytes)
          = e.2.1
      ∧ QInv q' l ∧ q'.msgs = q.msgs ∧ q'.msgSizeBytes = q.msgSizeBytes := by
  obtain ⟨hMpos, hheadEq, hcountEq, hnodup, hmemLt, hringN, hringP, hsorted,
    hprioEq, hbytesLen, hpayloadEq, hfreeOff, hfreeDisj, hfreeNodup,
    htotalEq⟩ := inv
  have hhead : q.head = some e.1 := by rw [hheadEq]; rfl
  have hprio : q.prioA e.1 = e.2.2 := hprioEq e (List.mem_cons_self e l)
  have hsrcmod : e.1 * q.msgSizeBytes % q.msgSizeBytes = 0 :=
    Nat.mul_mod_left _ _
  have hsrcdiv : e.1 * q.msgSizeBytes / q.msgSizeBytes = e.1 :=
    Nat.mul_div_cancel _ hMpos
  have hbytes : (List.range q.msgSizeBytes).map
      (memcpy buf 0 q.payload (e.1 * q.msgSizeBytes) q.msgSizeBytes)
        = e.2.1 := by
    have hlen := hbytesLen e (List.mem_cons_self e l)
    apply List.ext_getElem
    · simp [hlen]
    · intro i h1 h2
      simp only [List.getElem_map, List.getElem_range]
      have hi : i < q.msgSizeBytes := by simpa using h1
      rw [show memcpy buf 0 q.payload (e.1 * q.msgSizeBytes)
            q.msgSizeBytes i = q.payload (e.1 * q.msgSizeBytes + i) from
          by simp [memcpy, hi],
        hpayloadEq e (List.mem_cons_self e l) i hi]
      exact List.getD_eq_getElem e.2.1 0 h2
  have hfreeIdx : ∀ d ∈ q.firstFree, d / q.msgSizeBytes ≠ e.1 := by
    intro d hd he
    exact hfreeDisj d hd (by rw [he]; simp)
  rcases l with _ | ⟨t, l2⟩
  · -- the queue held a single message
    have hcount1 : q.count = 1 := by simpa using hcountEq
    have hc1 : ¬ q.count > 1 := by omega
    have hcomp : MsgQueue._try_receive q buf q.msgSizeBytes
        = some (memcpy buf 0 q.payload (e.1 * q.msgSizeBytes)
            q.msgSizeBytes, e.2.2,
            { q with
              head := none
              firstFree := e.1 * q.msgSizeBytes :: q.firstFree
              count := q.count - 1
              sendList := q.sendList.drop 1 }) := by
      simp only [MsgQueue._try_receive, hhead]
      rw [if_neg hc1, hprio]
    refine ⟨_, hcomp, hbytes, ?_, rfl, rfl⟩
    refine ⟨hMpos, rfl, ?_, by simp, by simp, ⟨by simp, by simp⟩,
      ⟨by simp, by simp⟩, by simp, by simp, by simp, by simp, ?_, by simp,
      ?_, ?_⟩
    · simp [hcount1]
    · intro d hd
      rcases List.mem_cons.mp hd with hd | hd
      · subst hd
        refine ⟨hsrcmod, ?_⟩
        show e.1 * q.msgSizeBytes / q.msgSizeBytes < q.msgs
        rw [hsrcdiv]
        exact hmemLt e (List.mem_cons_self e _)
      · exact hfreeOff d hd
    · simp only [List.map_cons, List.nodup_cons]
      refine ⟨?_, hfreeNodup⟩
      rw [hsrcdiv]
      intro hmem
      rcases List.mem_map.mp hmem with ⟨d, hd, hde⟩
      exact hfreeIdx d hd hde
    · simp at htotalEq ⊢
      omega
  · -- at least two messages: unsplice the head
    have hc2 : q.count > 1 := by
      simp at hcountEq
      omega
    obtain ⟨w, hw⟩ : ∃ w, (List.map Prod.fst (t :: l2)).getLast? = some w :=
      ⟨_, List.getLast?_eq_getLast_of_ne_nil (by simp)⟩
    have hnd' : (e.1 :: List.map Prod.fst (t :: l2)).Nodup := by
      simpa using hnodup
    have hrN' : IsRing q.nextA (e.1 :: List.map Prod.fst (t :: l2)) := by
      simpa using hringN
    have hrP' : IsRing q.prevA
        ((e.1 :: List.map Prod.fst (t :: l2)).reverse) := by
      simpa using hringP
    obtain ⟨hnz, hpw, hu1, hu2, hring2N, hring2P⟩ :=
      ring_remove q.nextA q.prevA e.1 t.1 w (List.map Prod.fst (t :: l2))
        rfl hw hnd' hrN' hrP'
    have hcomp : MsgQueue._try_receive q buf q.msgSizeBytes
        = some (memcpy buf 0 q.payload (e.1 * q.msgSizeBytes)
            q.msgSizeBytes, e.2.2,
            { q with
              head := some t.1
              prevA := Function.update q.prevA t.1 w
              nextA := Function.update q.nextA w t.1
              firstFree := e.1 * q.msgSizeBytes :: q.firstFree
              count := q.count - 1
              sendList := q.sendList.drop 1 }) := by
      simp only [MsgQueue._try_receive, hhead]
      rw [if_pos hc2, hprio, hnz, hpw, hu1, hu2]
    refine ⟨_, hcomp, hbytes, ?_, rfl, rfl⟩
    refine ⟨hMpos, rfl, ?_, hnd'.of_cons, ?_, ?_, ?_, hsorted.of_cons,
      ?_, ?_, ?_, ?_, ?_, ?_, ?_⟩
    · simp at hcountEq ⊢
      omega
    · exact fun x hx => hmemLt x (List.mem_cons_of_mem e hx)
    · exact hring2N
    · exact hring2P
    · exact fun x hx => hprioEq x (List.mem_cons_of_mem e hx)
    · exact fun x hx => hbytesLen x (List.mem_cons_of_mem e hx)
    · exact fun x hx => hpayloadEq x (List.mem_cons_of_mem e hx)
    · intro d hd
      rcases List.mem_cons.mp hd with hd | hd
      · subst hd
        refine ⟨hsrcmod, ?_⟩
        show e.1 * q.msgSizeBytes / q.msgSizeBytes < q.msgs
        rw [hsrcdiv]
        exact hmemLt e (List.mem_cons_self e _)
      · exact hfreeOff d hd
    · intro d hd
      rcases List.mem_cons.mp hd with hd | hd
      · subst hd
        rw [hsrcdiv]
        simp only [List.map_cons, List.nodup_cons] at hnd'
        exact hnd'.1
      · intro hmem
        exact hfreeDisj d hd (List.mem_cons_of_mem _ hmem)
    · simp only [List.map_cons, List.nodup_cons]
      refine ⟨?_, hfreeNodup⟩
      rw [hsrcdiv]
      intro hmem
      rcases List.mem_map.mp hmem with ⟨d, hd, hde⟩
      exact hfreeIdx d hd hde
    · simp at htotalEq ⊢
      omega

/-- A freshly constructed queue refines the empty content list. -/
theorem mkQueue_inv (N M : Nat) (us : Bool) (mem : Nat → Nat)
    (hM : 0 < M) : QInv (MsgQueue.mkQueue N M us mem) [] := by
  refine ⟨hM, rfl, rfl, by simp, by simp, ⟨by simp, by simp⟩,
    ⟨by simp, by simp⟩, by simp, by simp, by simp, by simp, ?_, by simp,
    ?_, by simp [MsgQueue.mkQueue, MsgQueue._init]⟩
  · intro d hd
    rcases List.mem_map.mp hd with ⟨i, hi, hdi⟩
    rw [List.mem_range] at hi
    refine ⟨?_, ?_⟩
    · show d % M = 0
      rw [← hdi]
      exact Nat.mul_mod_left i M
    · show d / M < N
      rw [← hdi, Nat.mul_div_cancel i hM]
      exact hi
  · show (((List.range N).map (· * M)).map (· / M)).Nodup
    have hmm : ((List.range N).map (· * M)).map (· / M) = List.range N := by
      rw [List.map_map,
        show ((· / M) ∘ (· * M)) = (id : Nat → Nat) from
          funext fun i => Nat.mul_div_cancel i hM,
        List.map_id]
    rw [hmm]
    exact List.nodup_range N

/-- Iterated simulation of `sendAll`: with enough free slots every send
succeeds and the final abstract content is the left fold of stable
priority insertions. -/
theorem sendAll_sim :
    ∀ (S : List Msg) (q : MsgQueue) (l : List QEntry), QInv q l →
      (∀ m ∈ S, m.1.length = q.msgSizeBytes) →
      l.length + S.length ≤ q.msgs →
      ∃ q' l', sendAll q S = some q' ∧ QInv q' l'
        ∧ l'.map Prod.snd
            = S.foldl (fun acc m => insertByPrio Prod.snd m acc)
              (l.map Prod.snd)
        ∧ l'.length = l.length + S.length
        ∧ q'.msgs = q.msgs ∧ q'.msgSizeBytes = q.msgSizeBytes := by
  intro S
  induction S with
  | nil =>
      intro q l inv _ _
      exact ⟨q, l, rfl, inv, rfl, by simp, rfl, rfl⟩
  | cons m S ih =>
      intro q l inv hlen hcap
      obtain ⟨dest, restFree, hfree⟩ :
          ∃ dest restFree, q.firstFree = dest :: restFree := by
        rcases hf : q.firstFree with _ | ⟨d, r⟩
        · exfalso
          have ht := inv.totalEq
          rw [hf] at ht
          simp at ht hcap
          omega
        · exact ⟨d, r, rfl⟩
      obtain ⟨q1, hq1eq, hq1inv, hq1msgs, hq1M⟩ :=
        try_send_sim q l inv m.1 (hlen m (by simp)) m.2 dest restFree hfree
      have hstep : sendAll q (m :: S) = sendAll q1 S := by
        simp only [sendAll, hq1eq]
      have hlen1 : (insertByPrio entryPrio
          (dest / q.msgSizeBytes, m.1, m.2) l).length = l.length + 1 := by
        rw [(insertByPrio_perm entryPrio
          (dest / q.msgSizeBytes, m.1, m.2) l).length_eq]
        rfl
      obtain ⟨q2, l2', hq2eq, hq2inv, hq2map, hq2len, hq2msgs, hq2M⟩ :=
        ih q1 (insertByPrio entryPrio (dest / q.msgSizeBytes, m.1, m.2) l)
          hq1inv
          (by rw [hq1M]; exact fun x hx => hlen x (by simp [hx]))
          (by rw [hq1msgs, hlen1]; simp at hcap; omega)
      refine ⟨q2, l2', by rw [hstep, hq2eq], hq2inv, ?_, ?_,
        by rw [hq2msgs, hq1msgs], by rw [hq2M, hq1M]⟩
      · rw [hq2map, insertByPrio_map_snd]
        rfl
      · rw [hq2len, hlen1]
        simp
        omega

/-- Iterated simulation of `drainAll`: draining a queue that refines `l`
returns exactly the messages of `l`, in order. -/
theorem drainAll_sim :
    ∀ (l : List QEntry) (q : MsgQueue), QInv q l →
      drainAll l.length q = l.map Prod.snd := by
  intro l
  induction l with
  | nil =>
      intro q _
      rfl
  | cons e l2 ih =>
      intro q inv
      obtain ⟨q1, hrec, hbytes, hinv1, _, _⟩ :=
        try_receive_sim q e l2 inv zeroMem
      show drainAll (l2.length + 1) q = _
      simp only [drainAll, hrec]
      rw [hbytes, ih q1 hinv1]
      rfl

/-! ### C1 -/

/-- C1: the claim says a send with `nbytes ≤ M` passes the message-size
precondition and one with `nbytes > M` fails.  The code has the comparison
reversed (`os_assert_err (nbytes >= msg_size_bytes_, EMSGSIZE)`),
contradicting its own documentation: on the 4-bytes-per-message queue,
`try_send` with a non-null buffer and `nbytes = 2 ≤ 4` fails with
`EMSGSIZE` (as do the gates of the blocking `send` outside handler mode),
while `nbytes = 8 > 4` passes the size gate and succeeds. -/
theorem C1_send_size_gate_reversed :
    (MsgQueue.try_send q34 (some zeroMem) 2 7).1 = Result.emsgsize ∧
    MsgQueue.send_gates false q34 (some zeroMem) 2
      = some Result.emsgsize ∧
    (MsgQueue.try_send q34 (some zeroMem) 8 7).1 = Result.ok := by
  refine ⟨rfl, rfl, ?_⟩
  rfl

/-! ### C2 -/

/-- C2: for every sequence of at most `N` sends of full-size messages
into a fresh (empty) queue, every send succeeds, and draining the queue
returns exactly the stable descending-priority sort of the sent sequence:
the returned messages are a permutation of the sent ones, the returned
priority sequence is non-increasing, and for each priority level the
messages are received in the order they were sent (FIFO among ties). -/
theorem C2_priority_order_fifo (N M : Nat) (us : Bool) (mem : Nat → Nat)
    (S : List Msg) (hM : 0 < M) (hlen : S.length ≤ N)
    (hbytes : ∀ m ∈ S, m.1.length = M) :
    ∃ q', sendAll (MsgQueue.mkQueue N M us mem) S = some q'
      ∧ drainAll S.length q' = sortSends S
      ∧ (drainAll S.length q').Perm S
      ∧ List.Pairwise (fun a b : Msg => b.2 ≤ a.2) (drainAll S.length q')
      ∧ ∀ p, (drainAll S.length q').filter (fun x => decide (x.2 = p))
          = S.filter (fun x => decide (x.2 = p)) := by
  have hinv0 := mkQueue_inv N M us mem hM
  obtain ⟨q', l', hsend, hinv, hmap, hlength, hmsgs, hMq⟩ :=
    sendAll_sim S (MsgQueue.mkQueue N M us mem) [] hinv0 hbytes
      (by simpa using hlen)
  have hdrain : drainAll S.length q' = l'.map Prod.snd := by
    rw [show S.length = l'.length by simpa using hlength.symm]
    exact drainAll_sim l' q' hinv
  have hsort : drainAll S.length q' = sortSends S := by
    rw [hdrain, hmap]
    rfl
  refine ⟨q', hsend, hsort, ?_, ?_, ?_⟩
  · rw [hsort]
    simpa using foldl_insertByPrio_perm Prod.snd S []
  · rw [hsort]
    exact foldl_insertByPrio_pairwise Prod.snd S [] (by simp)
  · intro p
    rw [hsort]
    simpa using foldl_insertByPrio_filter Prod.snd p S [] (by simp)

/-- C2 witness: the spec's own end-to-end scenario — a 3-message,
4-bytes-per-message queue receiving ids 1, 2, 3 at priorities 5, 9, 5 —
instantiates the theorem. -/
theorem C2_priority_order_fifo_witness :
    0 < 4 ∧
    ([([1, 0, 0, 0], 5), ([2, 0, 0, 0], 9), ([3, 0, 0, 0], 5)]
      : List Msg).length ≤ 3 ∧
    (∀ m ∈ ([([1, 0, 0, 0], 5), ([2, 0, 0, 0], 9), ([3, 0, 0, 0], 5)]
      : List Msg), m.1.length = 4) ∧
    ∃ q', sendAll (MsgQueue.mkQueue 3 4 false zeroMem)
          [([1, 0, 0, 0], 5), ([2, 0, 0, 0], 9), ([3, 0, 0, 0], 5)]
        = some q'
      ∧ drainAll 3 q'
          = sortSends [([1, 0, 0, 0], 5), ([2, 0, 0, 0], 9),
              ([3, 0, 0, 0], 5)]
      ∧ (drainAll 3 q').Perm
          [([1, 0, 0, 0], 5), ([2, 0, 0, 0], 9), ([3, 0, 0, 0], 5)]
      ∧ List.Pairwise (fun a b : Msg => b.2 ≤ a.2) (drainAll 3 q')
      ∧ ∀ p, (drainAll 3 q').filter (fun x => decide (x.2 = p))
          = List.filter (fun x => decide (x.2 = p))
              [([1, 0, 0, 0], 5), ([2, 0, 0, 0], 9), ([3, 0, 0, 0], 5)] :=
  ⟨by decide, by decide, by decide,
    C2_priority_order_fifo 3 4 false zeroMem
      [([1, 0, 0, 0], 5), ([2, 0, 0, 0], 9), ([3, 0, 0, 0], 5)]
      (by decide) (by decide) (by decide)⟩

/-! ### C3 -/

/-- C3: after construction and after every sequence of send, receive and
reset operations (with arbitrary buffers, sizes and priorities) on a queue
of capacity `N`, the number of enqueued messages plus the length of the
free list equals `N`, and the count stays between `0` and `N`. -/
theorem C3_conservation (N M : Nat) (us : Bool) (mem : Nat → Nat)
    (ops : List QOp) (_hN : 0 < N) :
    (runOps (MsgQueue.mkQueue N M us mem) ops).count
        + (runOps (MsgQueue.mkQueue N M us mem) ops).firstFree.length = N ∧
    (runOps (MsgQueue.mkQueue N M us mem) ops).count ≤ N := by
  have h0 : Conserved (MsgQueue.mkQueue N M us mem) := conserved_init _
  have h := runOps_conserved ops _ h0
  have hm : (MsgQueue.mkQueue N M us mem).msgs = N := rfl
  rw [hm] at h
  obtain ⟨⟨h1, _⟩, h2⟩ := h
  rw [h2] at h1
  exact ⟨h1, by omega⟩

/-- C3 witness: the conservation theorem applied to a 2-message queue and
a concrete operation sequence (two sends, a receive, a failing
null-buffer receive, a reset). -/
theorem C3_conservation_witness :
    0 < 2 ∧
    ((runOps (MsgQueue.mkQueue 2 1 false zeroMem) opsC3).count
        + (runOps (MsgQueue.mkQueue 2 1 false zeroMem) opsC3).firstFree.length
          = 2 ∧
      (runOps (MsgQueue.mkQueue 2 1 false zeroMem) opsC3).count ≤ 2) :=
  ⟨by decide, C3_conservation 2 1 false zeroMem opsC3 (by decide)⟩

/-! ### C5 -/

/-- C5: the claim says the destructor deallocates iff the queue owns its
storage.  The portable destructor tests `if (flags_ | flags_allocated)` —
bitwise OR against a nonzero constant — so it deallocates every queue,
including one built over caller-provided storage (`flags_` without the
ownership bit, as produced by `mkQueue` with user storage). -/
theorem C5_destructor_always_frees :
    (∀ q : MsgQueue, MsgQueue.destructor_frees q = true) ∧
    (MsgQueue.mkQueue 3 4 true zeroMem).flags = 0 ∧
    MsgQueue.destructor_frees (MsgQueue.mkQueue 3 4 true zeroMem) = true := by
  refine ⟨?_, rfl, rfl⟩
  intro q
  simp only [MsgQueue.destructor_frees, decide_eq_true_eq]
  intro h
  have := congrArg (fun n => Nat.testBit n 0) h
  simp [Nat.testBit_lor, mqueue.flags_allocated] at this

/-! ### C4 -/

/-- C4 counterexample: the claim says exactly `M` bytes are copied to the
caller's buffer regardless of the `nbytes` argument.  But `_try_receive`
executes `memcpy (msg, src, nbytes)`: on the 4-bytes-per-message queue
holding `[1,2,3,4]` and `[9,9,9,9]`, a receive with `nbytes = 6` writes
bytes 4 and 5 of the caller's (initially zero) buffer with the adjacent
slot's bytes `9, 9` — more than `M = 4` bytes are copied. -/
theorem C4_counterexample :
    (MsgQueue._try_receive qTwoMsgs zeroMem 6).map
        (fun r => (r.1 4, r.1 5)) = some (9, 9) ∧
    qTwoMsgs.msgSizeBytes = 4 ∧ zeroMem 4 = 0 ∧ (9 : Nat) ≠ 0 := by
  refine ⟨?_, rfl, rfl, by decide⟩
  rfl

/-- C4 (amended): every successful receive copies exactly `nbytes` bytes —
the caller's size argument, which the public variants constrain to
`msg_size_bytes_ ≤ nbytes ≤ mqueue::max_size` — from the queue storage
starting at the head slot's payload; buffer bytes at and beyond `nbytes`
are untouched. -/
theorem C4_receive_copies_nbytes (q : MsgQueue) (buf : Nat → Nat)
    (nbytes h : Nat) (hh : q.head = some h) :
    ∃ r : (Nat → Nat) × Nat × MsgQueue,
      MsgQueue._try_receive q buf nbytes = some r ∧
      (∀ i, i < nbytes → r.1 i = q.payload (h * q.msgSizeBytes + i)) ∧
      (∀ i, nbytes ≤ i → r.1 i = buf i) := by
  unfold MsgQueue._try_receive
  rw [hh]
  refine ⟨_, rfl, ?_, ?_⟩
  · intro i hi
    simp [memcpy, hi]
  · intro i hi
    simp only [memcpy]
    rw [if_neg (by omega)]

/-- C4 witness: the amended theorem applied to the concrete two-message
queue, an all-zero caller buffer and `nbytes = 6`. -/
theorem C4_receive_copies_nbytes_witness :
    qTwoMsgs.head = some 0 ∧
    ∃ r : (Nat → Nat) × Nat × MsgQueue,
      MsgQueue._try_receive qTwoMsgs zeroMem 6 = some r ∧
      (∀ i, i < 6 → r.1 i = qTwoMsgs.payload (0 * qTwoMsgs.msgSizeBytes + i)) ∧
      (∀ i, 6 ≤ i → r.1 i = zeroMem i) :=
  ⟨rfl, C4_receive_copies_nbytes qTwoMsgs zeroMem 6 0 rfl⟩

/-! ### C7 -/

/-- C7: the claim says a thread woken by interruption observes
`interrupted ()` true and the blocking call returns `EINTR`.  In the code
`Thread::interrupted` is the stub `return false`, so no iteration of the
`Message_queue::receive` wait loop can ever produce `EINTR`: the loop body
either succeeds with `result::ok` or retries. -/
theorem C7_interrupted_stub_no_eintr :
    (∀ t : Thread, Thread.interrupted t = false) ∧
    ∀ (q : MsgQueue) (crt : Thread) (buf : Nat → Nat) (nbytes : Nat),
      MsgQueue.receive_body_result q crt buf nbytes ≠ some Result.eintr := by
  refine ⟨fun _ => rfl, ?_⟩
  intro q crt buf nbytes
  rcases h : MsgQueue._try_receive q buf nbytes with _ | ⟨b, p, q'⟩ <;>
    simp [MsgQueue.receive_body_result, MsgQueue.receive_body, h,
      Thread.interrupted]

/-! ### C9 -/

/-- C9: `sig_get` invoked (outside handler mode) with `mask == 0` returns
the thread's entire signal mask and leaves the thread — in particular its
signal mask — completely unchanged, for every mode, including modes that
contain the clear bit. -/
theorem C9_sig_get_zero_mask_frame :
    ∀ (t : Thread) (mode : Nat),
      Thread.sig_get false t 0 mode = (t.sigMask, t) := by
  intro t mode
  rfl

/-! ### C10 -/

/-- C10: `Thread::kill` on any thread — whatever its lifecycle state,
including `terminated` and `destroyed` — returns `result::ok`, sets the
scheduling state to `inactive`, and changes no other field (priority,
signal mask, wakeup reason and exit value are preserved). -/
theorem C10_kill_inactive_frame :
    ∀ t : Thread,
      Thread.kill t
        = (Result.ok, { t with schedState := ThreadState.inactive }) ∧
      (Thread.kill t).2.prio = t.prio ∧
      (Thread.kill t).2.sigMask = t.sigMask ∧
      (Thread.kill t).2.wakeupReason = t.wakeupReason ∧
      (Thread.kill t).2.funcResult = t.funcResult := by
  intro t
  exact ⟨rfl, rfl, rfl, rfl, rfl⟩

/-! ### C8 -/

/-- C8 counterexample: with `mask == 0` the code returns the whole signal
mask *without clearing it* (early return before the clear branch), so on a
thread with `sig_mask_ = 0b101` the second of two `sig_get (0, clear)`
calls returns `0b101`, not `0`. -/
theorem C8_counterexample_zero_mask :
    (Thread.sig_get false
        (Thread.sig_get false thr5 0 flags.mode.clear).2
        0 flags.mode.clear).1 = 5 ∧ (5 : Nat) ≠ 0 := by
  exact ⟨rfl, by decide⟩

/-- C8 (amended): for every *nonzero* mask `m` and every initial signal
mask, the second of two successive `sig_get (m, clear)` calls returns `0`;
with `m == 0` the call returns the whole mask and clears nothing, so the
second call repeats the first. -/
theorem C8_sig_get_clear_twice (t : Thread) (m : Nat) (hm : m ≠ 0) :
    (Thread.sig_get false
        (Thread.sig_get false t m flags.mode.clear).2
        m flags.mode.clear).1 = 0 := by
  simp only [Thread.sig_get, if_neg hm, if_false, Bool.false_eq_true,
    flags.mode.clear]
  norm_num [ldiff_land]

/-- C8 witness: the amended theorem applied to the thread with signal mask
`0b101` and `m = 3`. -/
theorem C8_sig_get_clear_twice_witness :
    (3 : Nat) ≠ 0 ∧
    (Thread.sig_get false
        (Thread.sig_get false thr5 3 flags.mode.clear).2
        3 flags.mode.clear).1 = 0 :=
  ⟨by decide, C8_sig_get_clear_twice thr5 3 (by decide)⟩

/-! ### C6 -/

/-- C6 counterexample: in mode *any* the code's `_try_wait` tests
`sig_mask_ != 0`, not `sig_mask_ & mask != 0`, and on success clears the
*entire* mask.  On a thread with `sig_mask_ = 0b10` and `mask = 0b01`
(no bit of the mask is set) `try_sig_wait` nevertheless succeeds, and the
out-of-mask bit `0b10` is cleared rather than left set. -/
theorem C6_counterexample_any_mode :
    thr2.sigMask &&& 1 = 0 ∧
    (Thread.try_sig_wait false thr2 1 true flags.mode.any).1
      = Result.ok ∧
    (Thread.try_sig_wait false thr2 1 true flags.mode.any).2.2.sigMask
      = 0 ∧
    thr2.sigMask ≠ 0 := by
  exact ⟨rfl, rfl, rfl, by decide⟩

/-- C6 (amended): for a nonzero mask and a mode containing *any* (and not
*all*), `try_sig_wait` succeeds exactly when the thread's signal mask is
nonzero — regardless of whether the mask and the signal mask intersect —
and on success the pre-clear snapshot is stored in `out` and the *entire*
signal mask is cleared. -/
theorem C6_try_sig_wait_any (t : Thread) (mask mode : Nat)
    (_hmask : mask ≠ 0) (hall : mode &&& flags.mode.all = 0)
    (hany : mode &&& flags.mode.any ≠ 0) :
    ((Thread.try_sig_wait false t mask true mode).1 = Result.ok
        ↔ t.sigMask ≠ 0) ∧
    (t.sigMask ≠ 0 →
      Thread.try_sig_wait false t mask true mode
        = (Result.ok, some t.sigMask, { t with sigMask := 0 })) := by
  have hgate : ¬ (mask ≠ 0 ∧ mode &&& flags.mode.all ≠ 0) := by
    simp [hall]
  simp only [Thread.try_sig_wait, Thread._try_wait, if_neg hgate,
    if_false, Bool.false_eq_true]
  rw [if_pos (Or.inr hany)]
  by_cases hs : t.sigMask ≠ 0
  · simp [hs]
  · simp [hs]

/-- C6 witness: the amended theorem applied to the thread with signal mask
`0b110`, `mask = 1`, `mode = flags::mode::any`. -/
theorem C6_try_sig_wait_any_witness :
    (1 : Nat) ≠ 0 ∧ flags.mode.any &&& flags.mode.all = 0 ∧
    flags.mode.any &&& flags.mode.any ≠ 0 ∧
    (((Thread.try_sig_wait false thr6 1 true flags.mode.any).1
          = Result.ok ↔ thr6.sigMask ≠ 0) ∧
      (thr6.sigMask ≠ 0 →
        Thread.try_sig_wait false thr6 1 true flags.mode.any
          = (Result.ok, some thr6.sigMask, { thr6 with sigMask := 0 }))) :=
  ⟨by decide, by decide, by decide,
    C6_try_sig_wait_any thr6 1 flags.mode.any (by decide) (by decide)
      (by decide)⟩

end CmsisPlus
